import Mathlib

/-!
Verification of the Next-Quest library tracker (Flask application).

Each module of the Python source (`flaskr/social.py`, `flaskr/steam.py`,
`flaskr/epic.py`, `flaskr/recommendations.py`) is shallowly embedded below:
database tables become lists of row structures, SQL queries become list
filters/joins, Python dicts keyed by ids become association lists that are
grown in iteration order, and remote HTTP calls become oracle parameters.
Floating-point `math.sqrt`/`math.log` are abstracted as function parameters
so that the scoring shape of the code can be stated over the reals.
The relational UNIQUE constraints come from the application's schema (not
part of the analysed sources); where a proof needs them they appear as
explicit `Nodup` hypotheses on the table contents.

The file is organised as: all definitions first, then all theorems.
-/

namespace NextQuest

/-! ## Generic association-list helpers (Python `dict` keyed by game id) -/

/-- Look up the value stored under key `k` in an association list. -/
def dlookup {α : Type} (d : List (Nat × α)) (k : Nat) : Option α :=
  (d.find? (fun p => p.1 = k)).map (·.2)

/-- The keys of an association list, in insertion order. -/
def dkeys {α : Type} (d : List (Nat × α)) : List Nat :=
  d.map (·.1)

/-- Membership test for a key, mirroring Python `k in dict`. -/
def dmem {α : Type} (d : List (Nat × α)) (k : Nat) : Bool :=
  d.any (fun p => p.1 = k)

/-- Python `dict[k] = v` when the key is known to be absent: append at the end. -/
def dinsertNew {α : Type} (d : List (Nat × α)) (k : Nat) (v : α) : List (Nat × α) :=
  if dmem d k then d else d ++ [(k, v)]

end NextQuest

namespace NextQuest.Social

/-! ## `flaskr/social.py`

Follow/unfollow state changes and the common-games relevance metric. -/

/-- State of the social tables: the set of registered user ids and the
`user_follows` table as a list of `(follower_id, following_id)` rows. -/
structure SocialDB where
  users : List Nat
  follows : List (Nat × Nat)
  deriving Repr, DecidableEq

/-- Outcome reported (via `flash`) by the `follow_user` view. -/
inductive FollowOutcome where
  | notFound
  | selfFollow
  | alreadyFollowing
  | followed
  deriving Repr, DecidableEq

/-- Embedding of `follow_user` (social.py lines 39-72): check that the target
exists, reject self-follows, report an existing edge, otherwise insert the
edge.  Returns the flashed outcome together with the new state. -/
def follow_user (db : SocialDB) (me target : Nat) : FollowOutcome × SocialDB :=
  if ¬ target ∈ db.users then
    (FollowOutcome.notFound, db)
  else if target = me then
    (FollowOutcome.selfFollow, db)
  else if (me, target) ∈ db.follows then
    (FollowOutcome.alreadyFollowing, db)
  else
    (FollowOutcome.followed, { db with follows := db.follows ++ [(me, target)] })

/-- Embedding of `unfollow_user` (social.py lines 75-90): if the target user
exists, delete every `(me, target)` edge; otherwise do nothing.  No outcome
distinguishes the was-following and was-not-following cases. -/
def unfollow_user (db : SocialDB) (me target : Nat) : SocialDB :=
  if target ∈ db.users then
    { db with follows := db.follows.filter (fun e => ¬ (e.1 = me ∧ e.2 = target)) }
  else
    db

/-- The follow table never holds a self-edge. -/
def Irreflexive (db : SocialDB) : Prop :=
  ∀ e ∈ db.follows, e.1 ≠ e.2

/-- Embedding of the per-row relevance computation of `common_games`
(social.py lines 164-184).  The playtimes are the two users' library
playtimes for a shared game (SQL `NULL` has already been collapsed to 0 by
the `or 0` guards); `sqrt` and `log` stand for `math.sqrt` and `math.log`,
kept as parameters so the definition stays executable. -/
def relevance {α : Type} [LinearOrderedField α] (sqrt log : α → α)
    (my_playtime their_playtime : Nat) : α :=
  let total_playtime : Nat := my_playtime + their_playtime
  if my_playtime > 0 ∧ their_playtime > 0 then
    sqrt ((my_playtime : α) * (their_playtime : α)) * log ((total_playtime : α) + 1)
  else
    0

/-- The `valid_sorts` whitelist of `common_games` (social.py lines 133-139),
as the list of its keys (each key maps to itself). -/
def common_valid_sorts : List String :=
  ["name", "playtime", "my_playtime", "their_playtime", "relevance"]

/-- Sort-parameter validation of `common_games` (social.py lines 142-148):
a sort key outside the whitelist falls back to `"name"`, an order outside
`asc`/`desc` falls back to `"asc"`. -/
def common_sort_params (sort_by sort_order : String) : String × String :=
  let sb := if ¬ sort_by ∈ common_valid_sorts then "name" else sort_by
  let so := if ¬ sort_order ∈ ["asc", "desc"] then "asc" else sort_order
  (sb, so)

end NextQuest.Social

namespace NextQuest.Steam

/-! ## `flaskr/steam.py` (library listing sort validation) -/

/-- The `valid_sorts` whitelist of the `library` view (steam.py lines
423-427), mapping each accepted sort key to the SQL column it selects. -/
def library_valid_sorts : List (String × String) :=
  [("name", "g.name"), ("playtime", "ugl.playtime_forever"), ("imported", "ugl.imported_at")]

/-- Sort-parameter validation of the `library` view (steam.py lines 430-433):
a sort key outside the whitelist falls back to `"name"`, an order outside
`asc`/`desc` falls back to `"asc"`. -/
def library_sort_params (sort_by sort_order : String) : String × String :=
  let sb := if ¬ sort_by ∈ library_valid_sorts.map (·.1) then "name" else sort_by
  let so := if ¬ sort_order ∈ ["asc", "desc"] then "asc" else sort_order
  (sb, so)

/-- Python `str.upper()` for the ASCII sort directions, written out over the
character list so it evaluates by kernel reduction. -/
def pyUpper (s : String) : String :=
  String.mk (s.data.map Char.toUpper)

/-- The `ORDER BY` clause built by the `library` view (steam.py lines
436-438) from the whitelisted column and the upper-cased direction. -/
def library_order_clause (sort_by sort_order : String) : String :=
  let p := library_sort_params sort_by sort_order
  let order_column := ((library_valid_sorts.find? (fun q => q.1 = p.1)).map (·.2)).getD ""
  let order_direction := pyUpper p.2
  order_column ++ " " ++ order_direction

/-! ### Identity resolution (`resolve_steam_id`, steam.py lines 22-68)

String operations are written over `List Char` with structural recursion so
that every definition evaluates by kernel reduction. -/

/-- Does `pat` occur at the head of `s`? -/
def leadMatch : List Char → List Char → Bool
  | [], _ => true
  | _ :: _, [] => false
  | p :: ps, c :: cs => p = c && leadMatch ps cs

/-- The suffix of `s` after the rightmost occurrence of `pat`, when `pat`
occurs in `s`.  The URL markers below cannot overlap themselves (no
nonempty border), so for them this agrees with Python `s.split(pat)[-1]`. -/
def afterLastOcc (pat : List Char) : List Char → Option (List Char)
  | [] => none
  | c :: cs =>
    match afterLastOcc pat cs with
    | some r => some r
    | none => if leadMatch pat (c :: cs) then some ((c :: cs).drop pat.length) else none

/-- Python `pat in s` (substring containment) for a nonempty pattern. -/
def hasSub (pat s : List Char) : Bool :=
  (afterLastOcc pat s).isSome

/-- Python `str.strip()`: drop whitespace from both ends. -/
def pyStrip (s : List Char) : List Char :=
  ((s.dropWhile Char.isWhitespace).reverse.dropWhile Char.isWhitespace).reverse

/-- Python `str.isdigit()` (restricted to ASCII digits, the only characters
relevant to Steam ids): nonempty and consisting of digits. -/
def pyIsDigit (s : List Char) : Bool :=
  !s.isEmpty && s.all Char.isDigit

/-- The profile-URL marker of steam.py line 34. -/
def profilesMarker : List Char := "steamcommunity.com/profiles/".data

/-- The vanity-URL marker of steam.py line 37. -/
def idMarker : List Char := "steamcommunity.com/id/".data

/-- Input cleaning of `resolve_steam_id` (steam.py lines 32-38): strip the
input, then — if one of the two profile-URL markers occurs — keep what
follows its last occurrence up to the next `/`. -/
def cleanSteamInput (raw : String) : List Char :=
  let s := pyStrip raw.data
  if hasSub profilesMarker s then
    ((afterLastOcc profilesMarker s).getD s).takeWhile (fun c => ¬ c = '/')
  else if hasSub idMarker s then
    ((afterLastOcc idMarker s).getD s).takeWhile (fun c => ¬ c = '/')
  else s

/-- Abstract outcome of the `ResolveVanityURL` HTTP call (steam.py lines
48-68): a transport error, any other exception, or a parsed JSON `response`
object carrying its `success` code and optional `steamid`. -/
inductive VanityOutcome where
  | reqError
  | otherError
  | response (success : Int) (steamid : Option String)
  deriving Repr, DecidableEq

/-- The distinct error returns of `resolve_steam_id`, one constructor per
`return None, ...` site. -/
inductive ResolveErr where
  | credentialsMissing
  | invalidIdLength (n : Nat)
  | vanityNotFound
  | vanityFailed
  | connectionError
  | unexpected
  deriving Repr, DecidableEq

/-- Embedding of `resolve_steam_id` (steam.py lines 22-68).  The remote
vanity lookup is the `oracle` parameter; the function returns the
`(steam_id64, error)` pair of the source. -/
def resolve_steam_id (oracle : String → VanityOutcome) (apiKey : Option String)
    (raw : String) : Option String × Option ResolveErr :=
  if apiKey.isNone then
    (none, some ResolveErr.credentialsMissing)
  else
    let s := cleanSteamInput raw
    if pyIsDigit s then
      if s.length = 17 then
        (some (String.mk s), none)
      else
        (none, some (ResolveErr.invalidIdLength s.length))
    else
      match oracle (String.mk s) with
      | VanityOutcome.response success steamid =>
        if success = 1 then (steamid, none)
        else if success = 42 then (none, some ResolveErr.vanityNotFound)
        else (none, some ResolveErr.vanityFailed)
      | VanityOutcome.reqError => (none, some ResolveErr.connectionError)
      | VanityOutcome.otherError => (none, some ResolveErr.unexpected)

/-! ### Tag normalization (`get_game_tags_from_steam`, steam.py lines 238-295) -/

/-- The fixed tag vocabulary (steam.py lines 240-245, duplicated from
recommendations.py lines 12-17). -/
def POPULAR_TAGS : List String :=
  ["Action", "Adventure", "RPG", "Strategy", "Simulation", "Sports",
   "Racing", "Puzzle", "Indie", "Casual", "Multiplayer", "Singleplayer",
   "FPS", "Horror", "Sci-Fi", "Fantasy", "Open World", "Story Rich",
   "Co-op", "Competitive", "Sandbox", "Survival", "Crafting", "Building"]

/-- The alias table `tag_mapping` (steam.py lines 247-278), in insertion
order (Python dicts iterate in insertion order). -/
def tag_mapping : List (String × String) :=
  [("Action", "Action"), ("Adventure", "Adventure"), ("RPG", "RPG"),
   ("Role-playing", "RPG"), ("Strategy", "Strategy"), ("Simulation", "Simulation"),
   ("Sports", "Sports"), ("Racing", "Racing"), ("Puzzle", "Puzzle"),
   ("Indie", "Indie"), ("Casual", "Casual"), ("First-Person Shooter", "FPS"),
   ("FPS", "FPS"), ("Horror", "Horror"), ("Sci-Fi", "Sci-Fi"),
   ("Science Fiction", "Sci-Fi"), ("Fantasy", "Fantasy"), ("Open World", "Open World"),
   ("Story Rich", "Story Rich"), ("Co-op", "Co-op"), ("Cooperative", "Co-op"),
   ("Competitive", "Competitive"), ("Sandbox", "Sandbox"), ("Survival", "Survival"),
   ("Crafting", "Crafting"), ("Building", "Building"), ("Single-player", "Singleplayer"),
   ("Singleplayer", "Singleplayer"), ("Multi-player", "Multiplayer"),
   ("Multiplayer", "Multiplayer")]

/-- Python `str.lower()`, written out over the character list. -/
def pyLower (s : String) : String :=
  String.mk (s.data.map Char.toLower)

/-- Exact-match lookup `tag in tag_mapping` / `tag_mapping[tag]`
(steam.py line 282). -/
def lookupExact (tag : String) : Option String :=
  (tag_mapping.find? (fun kv => kv.1 = tag)).map (·.2)

/-- Case-insensitive lookup: the first alias whose lower-cased key equals
the lower-cased tag, as in the `for key, value ... break` loop
(steam.py lines 288-293). -/
def lookupCI (tag : String) : Option String :=
  (tag_mapping.find? (fun kv => pyLower kv.1 = pyLower tag)).map (·.2)

/-- The effective alias resolution: exact match first, case-insensitive
match second, `none` when unmapped. -/
def normalizeOne (tag : String) : Option String :=
  match lookupExact tag with
  | some v => some v
  | none => lookupCI tag

/-- One iteration of the normalization loop (steam.py lines 280-293):
resolve the alias and append the normalized tag unless it is outside the
vocabulary or already collected. -/
def normalizeStep (acc : List String) (tag : String) : List String :=
  match lookupExact tag with
  | some normalized =>
    if normalized ∈ POPULAR_TAGS ∧ ¬ normalized ∈ acc then acc ++ [normalized] else acc
  | none =>
    match lookupCI tag with
    | some value =>
      if value ∈ POPULAR_TAGS ∧ ¬ value ∈ acc then acc ++ [value] else acc
    | none => acc

/-- The tag-normalization pass of `get_game_tags_from_steam`
(steam.py lines 280-295). -/
def normalize_tags (tags : List String) : List String :=
  tags.foldl normalizeStep []

end NextQuest.Steam

namespace NextQuest.Epic

/-! ## `flaskr/epic.py` (`parse_epic_manifest`, lines 133-217)

The function receives either text that `json.loads` parses into a JSON
value, or text it fails on.  The parse outcome is passed in as
`Option JVal` (`none` models `json.JSONDecodeError`, which sends the source
into its plain-text fallback).  Every internal exception of the source is
caught (`except Exception` returns `None`), so the embedding is a total
function into `Option (List EpicGame)`, where the `none` result is the
Python `None` return value — the "no games" answer the route reports as a
flash message. -/

/-- A JSON value. -/
inductive JVal where
  | null
  | bool (b : Bool)
  | num (n : Int)
  | str (s : String)
  | arr (items : List JVal)
  | obj (fields : List (String × JVal))

/-- Python truthiness of a JSON value. -/
def truthy : JVal → Bool
  | JVal.null => false
  | JVal.bool b => b
  | JVal.num n => decide (¬ n = 0)
  | JVal.str s => !s.isEmpty
  | JVal.arr l => !l.isEmpty
  | JVal.obj f => !f.isEmpty

/-- Python `dict.get` on a JSON object's fields (`None` when absent). -/
def getKey (fields : List (String × JVal)) (k : String) : Option JVal :=
  (fields.find? (fun p => p.1 = k)).map (·.2)

/-- Python chained `a or b or ...`: the first truthy operand, or — when no
operand is truthy — the last operand as it is (possibly `None` or falsy). -/
def pyOrChain : List (Option JVal) → Option JVal
  | [] => none
  | [x] => x
  | x :: rest =>
    match x with
    | some v => if truthy v then some v else pyOrChain rest
    | none => pyOrChain rest

/-- One parsed game entry, mirroring the dict appended to `games`. -/
structure EpicGame where
  name : JVal
  app_id : Option JVal
  nmspace : Option JVal
  offer_id : Option JVal

/-- The name-alias chain `AppName or DisplayName or name or title`
(epic.py lines 153, 173, 190). -/
def nameOf (f : List (String × JVal)) : Option JVal :=
  pyOrChain [getKey f "AppName", getKey f "DisplayName", getKey f "name", getKey f "title"]

/-- The app-id alias chain `AppId or AppID or appId or id`. -/
def appIdOf (f : List (String × JVal)) : Option JVal :=
  pyOrChain [getKey f "AppId", getKey f "AppID", getKey f "appId", getKey f "id"]

/-- The namespace alias chain `Namespace or namespace`. -/
def nmspaceOf (f : List (String × JVal)) : Option JVal :=
  pyOrChain [getKey f "Namespace", getKey f "namespace"]

/-- Entry extraction shared by manifest formats 1 and 2 (epic.py lines
153-163 and 173-183): entries whose name chain yields nothing truthy are
skipped; the offer id falls back to the app id. -/
def extractEntry (f : List (String × JVal)) : Option EpicGame :=
  let game_name := nameOf f
  let app_id := appIdOf f
  match game_name with
  | some v =>
    if truthy v then
      some { name := v, app_id := app_id, nmspace := nmspaceOf f,
             offer_id := pyOrChain [getKey f "OfferId", getKey f "offerId", app_id] }
    else none
  | none => none

/-- Entry extraction of the nested-structure scan (epic.py lines 190-197),
whose offer-id chain has no app-id fallback. -/
def extractEntryNested (f : List (String × JVal)) : Option EpicGame :=
  match nameOf f with
  | some v =>
    if truthy v then
      some { name := v, app_id := appIdOf f, nmspace := nmspaceOf f,
             offer_id := pyOrChain [getKey f "OfferId", getKey f "offerId"] }
    else none
  | none => none

/-- The `isinstance(item, dict)` guard around entry extraction. -/
def entryOfItem (item : JVal) : Option EpicGame :=
  match item with
  | JVal.obj f => extractEntry f
  | _ => none

/-- The `isinstance(item, dict)` guard of the nested-structure scan. -/
def entryOfItemNested (item : JVal) : Option EpicGame :=
  match item with
  | JVal.obj f => extractEntryNested f
  | _ => none

/-- Python iteration over a truthy games-list value: an array yields its
items; iterating a string or a dict yields strings (characters / keys),
none of which is a dict, so they contribute no entries; iterating a number,
boolean or `None` raises `TypeError`, which the enclosing
`except Exception` turns into a `None` result. -/
def iterForGames : JVal → Option (List JVal)
  | JVal.arr l => some l
  | JVal.str _ => some []
  | JVal.obj _ => some []
  | _ => none

/-- The nested-structure scan (epic.py lines 185-197): walk the values of
the top-level object in order and collect entries from every list value. -/
def nestedScan (fields : List (String × JVal)) : Option (List EpicGame) :=
  let games := (fields.map (fun kv =>
    match kv.2 with
    | JVal.arr l => l.filterMap entryOfItemNested
    | _ => [])).flatten
  if games.isEmpty then none else some games

/-- One step of the plain-text fallback: try to match the regex
pattern of a quoted key, optional whitespace, a colon, optional whitespace
and a quoted value at the head of `cs`.  The character classes exclude the
quote, so the greedy runs are forced and the match is deterministic. -/
def matchKVAt (cs : List Char) : Option (String × String) :=
  match cs with
  | '"' :: rest =>
    let key := rest.takeWhile (fun c => ¬ c = '"')
    if key.isEmpty then none
    else
      match rest.drop key.length with
      | '"' :: rest2 =>
        match rest2.dropWhile Char.isWhitespace with
        | ':' :: rest4 =>
          match rest4.dropWhile Char.isWhitespace with
          | '"' :: rest6 =>
            let v := rest6.takeWhile (fun c => ¬ c = '"')
            if v.isEmpty then none
            else
              match rest6.drop v.length with
              | '"' :: _ => some (String.mk key, String.mk v)
              | _ => none
          | _ => none
        | _ => none
      | _ => none
  | _ => none

/-- Python `re.search`: try the pattern at every start position, leftmost
first. -/
def searchKV : List Char → Option (String × String)
  | [] => none
  | c :: cs =>
    match matchKVAt (c :: cs) with
    | some r => some r
    | none => searchKV cs

/-- Does the matched key mention name, title or app (case-insensitively)? -/
def keyIsGameKey (k : String) : Bool :=
  Steam.hasSub "name".data (Steam.pyLower k).data
    || Steam.hasSub "title".data (Steam.pyLower k).data
    || Steam.hasSub "app".data (Steam.pyLower k).data

/-- Processing of one line of unparseable manifest text (epic.py lines
204-213): strip it, skip blank and `#` lines, then keep the first
key/value match whose key mentions name, title or app. -/
def lineEntry (raw : List Char) : Option EpicGame :=
  let line := Steam.pyStrip raw
  if line.isEmpty then none
  else if line.headD ' ' = '#' then none
  else
    match searchKV line with
    | some (k, v) =>
      if keyIsGameKey k then
        some { name := JVal.str v, app_id := none, nmspace := none, offer_id := none }
      else none
    | none => none

/-- Python `str.split(sep)` for a single-character separator. -/
def splitChar (sep : Char) : List Char → List (List Char)
  | [] => [[]]
  | c :: rest =>
    if c = sep then [] :: splitChar sep rest
    else
      match splitChar sep rest with
      | r :: rs => (c :: r) :: rs
      | [] => [[c]]

/-- The plain-text fallback of `parse_epic_manifest` (epic.py lines
201-214). -/
def fallbackParse (text : String) : Option (List EpicGame) :=
  let games := (splitChar (Char.ofNat 10) text.data).filterMap lineEntry
  if games.isEmpty then none else some games

/-- Embedding of `parse_epic_manifest` (epic.py lines 133-217).  `parsed`
is the outcome of `json.loads text` (`none` on a decode error). -/
def parse_epic_manifest (parsed : Option JVal) (text : String) :
    Option (List EpicGame) :=
  match parsed with
  | some (JVal.arr items) =>
    let games := items.filterMap entryOfItem
    if games.isEmpty then none else some games
  | some (JVal.obj fields) =>
    let games_list := pyOrChain
      [getKey fields "games", getKey fields "Items", getKey fields "items",
       getKey fields "library"]
    match games_list with
    | some gl =>
      if truthy gl then
        match iterForGames gl with
        | some items =>
          let games := items.filterMap entryOfItem
          if games.isEmpty then none else some games
        | none => none
      else nestedScan fields
    | none => nestedScan fields
  | some _ => none
  | none => fallbackParse text

/-- The game list a caller sees: Python `None` and `[]` are both the
empty result (the route only tests `if not games`). -/
def resultGames (o : Option (List EpicGame)) : List EpicGame :=
  o.getD []

/-- A JSON value that is not a dict carrying a truthy name alias — the
entries the source skips. -/
def lacksName (item : JVal) : Bool :=
  match item with
  | JVal.obj f =>
    match nameOf f with
    | some v => !truthy v
    | none => true
  | _ => true

end NextQuest.Epic

namespace NextQuest.SteamImport

/-! ## `flaskr/steam.py` (`import_library`, lines 301-409)

The database writes of the import loop.  `CURRENT_TIMESTAMP` is the import
time parameter `t` (one value per request). -/

/-- A row of the `game` table, with the columns the import writes. -/
structure GameRow where
  id : Nat
  appid : String
  name : String
  platform : String
  playtime : Nat
  icon : String
  logo : String
  deriving Repr, DecidableEq

/-- A row of the `user_game_library` table. -/
structure LibRow where
  userId : Nat
  gameId : Nat
  playtime : Nat
  importedAt : Nat
  deriving Repr, DecidableEq

/-- The store state; `nextId` models the autoincrementing `game.id`. -/
structure DB where
  games : List GameRow
  lib : List LibRow
  nextId : Nat
  deriving Repr, DecidableEq

/-- One game object of the Steam `GetOwnedGames` response, after the
`.get(...)` defaulting of steam.py lines 338-342. -/
structure GameData where
  appid : Nat
  name : String
  playtime : Nat
  icon : String
  logo : String
  deriving Repr, DecidableEq

/-- Modelled from the spec: the schema file is not among the analysed
sources; per the data model a `game` row is unique per `(appid, platform)`,
so the `INSERT` of steam.py line 346 raises `IntegrityError` exactly when
such a row already exists. -/
def gameKeyTaken (db : DB) (k : String) : Bool :=
  db.games.any (fun r => r.appid = k ∧ r.platform = "steam")

/-- The `INSERT ... except IntegrityError: UPDATE` upsert on `game`
(steam.py lines 344-360). -/
def upsertGame (db : DB) (gd : GameData) : DB :=
  let k := toString gd.appid
  if gameKeyTaken db k then
    { db with games := db.games.map (fun r =>
        if r.appid = k ∧ r.platform = "steam" then
          { r with name := gd.name, playtime := gd.playtime,
                   icon := gd.icon, logo := gd.logo }
        else r) }
  else
    let row : GameRow :=
      { id := db.nextId, appid := k, name := gd.name, platform := "steam",
        playtime := gd.playtime, icon := gd.icon, logo := gd.logo }
    { db with games := db.games ++ [row], nextId := db.nextId + 1 }

/-- The `SELECT id FROM game WHERE appid = ? AND platform = ?` lookup
(steam.py lines 363-365). -/
def findGameId (db : DB) (k : String) : Option Nat :=
  (db.games.find? (fun r => r.appid = k ∧ r.platform = "steam")).map (·.id)

/-- Modelled from the spec: a `user_game_library` row is unique per
`(user, game)`, so the `INSERT` of steam.py line 376 raises
`IntegrityError` exactly when the membership row already exists. -/
def libKeyTaken (db : DB) (u gid : Nat) : Bool :=
  db.lib.any (fun l => l.userId = u ∧ l.gameId = gid)

/-- The library upsert (steam.py lines 374-388): insert the membership row,
or update its playtime and `imported_at` when it already exists. -/
def upsertLib (db : DB) (u gid pt t : Nat) : DB :=
  if libKeyTaken db u gid then
    { db with lib := db.lib.map (fun l =>
        if l.userId = u ∧ l.gameId = gid then
          { l with playtime := pt, importedAt := t }
        else l) }
  else
    { db with lib := db.lib ++ [{ userId := u, gameId := gid, playtime := pt, importedAt := t }] }

/-- One iteration of the import loop (steam.py lines 337-388).  The `none`
result models the crash Python would take on `game['id']` if the lookup
after the upsert found nothing. -/
def importStep (u t : Nat) (db : DB) (gd : GameData) : Option DB :=
  let db1 := upsertGame db gd
  match findGameId db1 (toString gd.appid) with
  | some gid => some (upsertLib db1 u gid gd.playtime t)
  | none => none

/-- The whole import loop of `import_library` over the fetched list. -/
def import_library (u t : Nat) (db : DB) (gds : List GameData) : Option DB :=
  gds.foldlM (importStep u t) db

/-- The identifying columns of the game rows, in table order. -/
def gkeys (db : DB) : List (Nat × String × String) :=
  db.games.map (fun r => (r.id, r.appid, r.platform))

/-- The identifying columns of the library rows, in table order. -/
def lkeys (db : DB) : List (Nat × Nat) :=
  db.lib.map (fun l => (l.userId, l.gameId))

/-- Both upsert keys of `gd` are present for user `u`: the game row exists
and the user's library links to the id the lookup returns. -/
def KeysPresent (u : Nat) (db : DB) (gd : GameData) : Prop :=
  ∃ gid, findGameId db (toString gd.appid) = some gid ∧ (u, gid) ∈ lkeys db

end NextQuest.SteamImport

namespace NextQuest

/-- Python dict assignment `d[k] = v` for arbitrary keys: overwrite in place
when the key exists (keeping its first-insertion position), append
otherwise. -/
def dictUpd {κ α : Type} [DecidableEq κ] (d : List (κ × α)) (k : κ) (v : α) :
    List (κ × α) :=
  if d.any (fun p => p.1 = k) then
    d.map (fun p => if p.1 = k then (k, v) else p)
  else d ++ [(k, v)]

/-- Python dict construction from a sequence of key/value pairs (a dict
comprehension): later duplicates overwrite earlier values. -/
def dictOfList {κ α : Type} [DecidableEq κ] (l : List (κ × α)) : List (κ × α) :=
  l.foldl (fun d p => dictUpd d p.1 p.2) []

/-- Update the value stored under `k0` in place, mirroring
`d[k0]['field'] = ...` mutation of an existing entry. -/
def dupdate {α : Type} (d : List (Nat × α)) (k0 : Nat) (f : α → α) : List (Nat × α) :=
  d.map (fun p => if p.1 = k0 then (k0, f p.2) else p)

end NextQuest

namespace NextQuest.Recs

/-! ## `flaskr/recommendations.py` (`index`, lines 20-132)

The view reads five tables and builds three Python dicts keyed by game id;
they are association lists grown in iteration order.  The
`db.OperationalError` branches (uninitialised tables) are environment
conditions outside the data model and are not modelled. -/

/-- The columns of a `game` row that the queries select. -/
structure Game where
  id : Nat
  appid : String
  name : String
  imgLogo : String
  deriving Repr, DecidableEq

/-- A row of `user_game_library`. -/
structure LibRow where
  userId : Nat
  gameId : Nat
  playtime : Nat
  deriving Repr, DecidableEq

/-- A row of `user_preferences`. -/
structure PrefRow where
  userId : Nat
  tag : String
  weight : Rat
  deriving Repr, DecidableEq

/-- The tables the recommendation view reads. -/
structure RecDB where
  prefs : List PrefRow
  lib : List LibRow
  follows : List (Nat × Nat)
  games : List Game
  gameTags : List (Nat × String)
  deriving Repr, DecidableEq

/-- The `user_tags` dict `{tag: weight}` (lines 28-31). -/
def user_tags (db : RecDB) (uid : Nat) : List (String × Rat) :=
  dictOfList ((db.prefs.filter (fun r => r.userId = uid)).map (fun r => (r.tag, r.weight)))

/-- The owned-game ids (lines 37-40); only membership and emptiness of the
Python set are ever used, so the filtered list represents it. -/
def user_game_ids (db : RecDB) (uid : Nat) : List Nat :=
  (db.lib.filter (fun l => l.userId = uid)).map (·.gameId)

/-- The `g.id NOT IN (...)` condition of both queries: with owned games the
placeholders are the owned ids; with none, the source interpolates the
literal `(0)` (lines 55-58 and 78-81), which excludes a game id 0. -/
def notExcl (db : RecDB) (uid : Nat) (g : Nat) : Bool :=
  if (user_game_ids db uid).isEmpty then ¬ g = 0 else ¬ g ∈ user_game_ids db uid

/-- The per-followed-user library join (lines 51-59), as a nested-loop
join of `user_game_library` and `game`. -/
def followedQuery (db : RecDB) (uid f : Nat) : List Game :=
  ((db.lib.filter (fun l => l.userId = f)).map (fun l =>
    db.games.filter (fun g => g.id = l.gameId ∧ notExcl db uid g.id))).flatten

/-- A value of the `followed_user_games` dict (lines 63-67). -/
structure FollowEntry where
  game : Game
  score : Rat
  reason : String
  deriving Repr, DecidableEq

/-- A value of the `tag_based_games` dict (lines 86-92). -/
structure TagEntry where
  game : Game
  score : Rat
  matching : List String
  deriving Repr, DecidableEq

/-- A value of the combined `recommendations` dict (lines 98-119). -/
structure RecEntry where
  game : Game
  score : Rat
  reason : String
  deriving Repr, DecidableEq

/-- The `followed_user_games` dict (lines 43-67): built only when the user
has preferences; first occurrence of a game wins. -/
def followed_user_games (db : RecDB) (uid : Nat) : List (Nat × FollowEntry) :=
  if (user_tags db uid).isEmpty then []
  else
    ((db.follows.filter (fun e => e.1 = uid)).map (·.2)).foldl
      (fun d f => (followedQuery db uid f).foldl
        (fun d g => dinsertNew d g.id ⟨g, 0, "Played by followed users"⟩) d) []

/-- The per-tag join of `game` and `game_tag` (lines 74-82). -/
def tagQuery (db : RecDB) (uid : Nat) (t : String) : List Game :=
  ((db.gameTags.filter (fun gt => gt.2 = t)).map (fun gt =>
    db.games.filter (fun g => g.id = gt.1 ∧ notExcl db uid g.id))).flatten

/-- One game of one tag query (lines 84-92): create the entry on first
sight, then add the tag weight to its score and record the matching tag. -/
def tagAdd (d : List (Nat × TagEntry)) (g : Game) (t : String) (w : Rat) :
    List (Nat × TagEntry) :=
  dupdate (dinsertNew d g.id ⟨g, 0, []⟩) g.id
    (fun e => ⟨e.game, e.score + w, e.matching ++ [t]⟩)

/-- The `tag_based_games` dict (lines 70-95): built only when the user has
preferences, iterating the preference dict in order. -/
def tag_based_games (db : RecDB) (uid : Nat) : List (Nat × TagEntry) :=
  if (user_tags db uid).isEmpty then []
  else
    (user_tags db uid).foldl
      (fun d tw => (tagQuery db uid tw.1).foldl (fun d g => tagAdd d g tw.1 tw.2) d) []

/-- Python `", ".join`. -/
def joinComma : List String → String
  | [] => ""
  | [s] => s
  | s :: rest => s ++ ", " ++ joinComma rest

/-- The entry the tag dict contributes to the combined dict (lines
102-106). -/
def mkRecEntry (e : TagEntry) : RecEntry :=
  ⟨e.game, e.score, "Matches your tags: " ++ joinComma (e.matching.take 3)⟩

/-- The tag-based seed of the combined dict (lines 100-106). -/
def baseRecs (db : RecDB) (uid : Nat) : List (Nat × RecEntry) :=
  (tag_based_games db uid).map (fun p => (p.1, mkRecEntry p.2))

/-- The reason rewrite of lines 112-113. -/
def boostReason (r : String) : String :=
  if Steam.hasSub "friends".data (Steam.pyLower r).data then r
  else r ++ "; Also played by followed users"

/-- One followed-game merge step (lines 109-119): add the +5 bonus to an
existing entry, or insert a new entry with score 5. -/
def boostStep (d : List (Nat × RecEntry)) (p : Nat × FollowEntry) :
    List (Nat × RecEntry) :=
  if dmem d p.1 then
    dupdate d p.1 (fun e => ⟨e.game, e.score + 5, boostReason e.reason⟩)
  else d ++ [(p.1, ⟨p.2.game, 5, p.2.reason⟩)]

/-- The combined `recommendations` dict (lines 98-119). -/
def recommendations_dict (db : RecDB) (uid : Nat) : List (Nat × RecEntry) :=
  (followed_user_games db uid).foldl boostStep (baseRecs db uid)

/-- Stable insertion for the descending sort: an element goes before the
first strictly smaller score, after earlier equal scores. -/
def insertByScore (e : RecEntry) : List RecEntry → List RecEntry
  | [] => [e]
  | x :: xs => if x.score > e.score then x :: insertByScore e xs else e :: x :: xs

/-- Python stable `sorted(..., key=score, reverse=True)` (lines 122-126). -/
def sortByScoreDesc (l : List RecEntry) : List RecEntry :=
  l.foldr insertByScore []

/-- What the view hands to the template (lines 128-132). -/
structure RecPage where
  recommendations : List RecEntry
  has_preferences : Bool
  deriving Repr, DecidableEq

/-- The `index` view of recommendations.py (lines 20-132): the ranked,
truncated recommendation list and the `has_preferences` flag. -/
def index (db : RecDB) (uid : Nat) : RecPage :=
  { recommendations :=
      (sortByScoreDesc ((recommendations_dict db uid).map (·.2))).take 50,
    has_preferences := !(user_tags db uid).isEmpty }

/-- The sum of the user's preference weights over the game's declared tags
(the quantity the specification calls the tag part of the score). -/
def prefTagSum (db : RecDB) (uid g : Nat) : Rat :=
  (((db.prefs.filter (fun r => r.userId = uid)).filter
      (fun r => db.gameTags.any (fun gt => gt.1 = g ∧ gt.2 = r.tag))).map (·.weight)).sum

/-- At least one followed user owns game `g`. -/
def followedOwns (db : RecDB) (uid g : Nat) : Bool :=
  db.follows.any (fun e => e.1 = uid ∧ db.lib.any (fun l => l.userId = e.2 ∧ l.gameId = g))

/-- The score read off an association-list dict (0 when absent). -/
def scoreAt (d : List (Nat × TagEntry)) (k : Nat) : Rat :=
  ((dlookup d k).map (·.score)).getD 0

/-- A small concrete store exercising the recommendation view: user 1
prefers Action with weight 1, owns games 10 and 30, and follows user 2,
who owns games 10 and 20; user 2 has no preferences and follows user 1;
games 10 and 20 are tagged Action. -/
def sampleDB : RecDB :=
  { prefs := [⟨1, "Action", 1⟩],
    lib := [⟨1, 10, 50⟩, ⟨1, 30, 5⟩, ⟨2, 10, 99⟩, ⟨2, 20, 99⟩],
    follows := [(1, 2), (2, 1)],
    games := [⟨10, "10", "Owned Game", ""⟩, ⟨20, "20", "New Game", ""⟩,
              ⟨30, "30", "Other Game", ""⟩],
    gameTags := [(10, "Action"), (20, "Action")] }

end NextQuest.Recs

/-! # Theorems -/

namespace NextQuest

theorem dmem_iff {α : Type} (d : List (Nat × α)) (k : Nat) :
    dmem d k = true ↔ k ∈ dkeys d := by
  simp only [dmem, dkeys, List.any_eq_true, List.mem_map, decide_eq_true_eq]

theorem dmem_append {α : Type} (d e : List (Nat × α)) (k : Nat) :
    dmem (d ++ e) k = (dmem d k || dmem e k) := by
  simp [dmem, List.any_append]

theorem dmem_dinsertNew {α : Type} (d : List (Nat × α)) (k k' : Nat) (v : α) :
    dmem (dinsertNew d k v) k' = (dmem d k' || decide (k' = k)) := by
  unfold dinsertNew
  by_cases h : dmem d k
  · by_cases h' : k' = k
    · subst h'; simp [h]
    · simp [h, h']
  · simp only [h, Bool.false_eq_true, if_false, dmem_append]
    simp [dmem, eq_comm]

theorem dkeys_dinsertNew_nodup {α : Type} (d : List (Nat × α)) (k : Nat) (v : α)
    (h : (dkeys d).Nodup) : (dkeys (dinsertNew d k v)).Nodup := by
  unfold dinsertNew
  by_cases hm : dmem d k
  · simpa [hm]
  · have hk : k ∉ dkeys d := by
      intro hc
      exact hm ((dmem_iff d k).2 hc)
    simp only [hm, Bool.false_eq_true, if_false]
    rw [dkeys, List.map_append, List.nodup_append]
    refine ⟨h, by simp, ?_⟩
    intro x hx
    simp only [List.map_cons, List.map_nil, List.mem_singleton]
    intro hxk
    exact hk (by simpa [dkeys, hxk] using hx)

end NextQuest

namespace NextQuest.Social

/-- Claim C3: for every shared game in the common-library comparison, the
relevance score equals `sqrt (my * their) * ln (my + their + 1)` when both
playtimes are positive, and is exactly `0` whenever either playtime is `0`
(instantiating the abstracted `math.sqrt`/`math.log` with the real square
root and natural logarithm). -/
theorem common_games_relevance_spec (my their : Nat) :
    (0 < my → 0 < their →
      relevance Real.sqrt Real.log my their
        = Real.sqrt ((my : ℝ) * their) * Real.log ((my : ℝ) + their + 1))
    ∧ ((my = 0 ∨ their = 0) → relevance Real.sqrt Real.log my their = (0 : ℝ)) := by
  constructor
  · intro hm ht
    have h : my > 0 ∧ their > 0 := ⟨hm, ht⟩
    simp only [relevance, if_pos h]
    push_cast
    ring_nf
  · intro h
    have h' : ¬ (my > 0 ∧ their > 0) := by
      rcases h with h | h <;> omega
    simp [relevance, h']

/-- Concrete instantiation of `common_games_relevance_spec` at playtimes
`(1, 1)` and `(0, 5)`. -/
theorem common_games_relevance_spec_witness :
    relevance Real.sqrt Real.log 1 1
        = Real.sqrt ((1 : ℝ) * 1) * Real.log ((1 : ℝ) + 1 + 1)
    ∧ relevance Real.sqrt Real.log 0 5 = (0 : ℝ) := by
  constructor
  · have h := (common_games_relevance_spec 1 1).1 (by decide) (by decide)
    simpa using h
  · exact (common_games_relevance_spec 0 5).2 (Or.inl rfl)

/-- Claim C5: follow/unfollow keep the edge set irreflexive and
duplicate-free and are idempotent for the caller: a self-follow request never
creates an edge (and is reported as rejected whenever the user exists),
following an already-followed user reports `alreadyFollowing` and changes
nothing, and unfollowing a non-followed user is a silent no-op. -/
theorem follow_unfollow_props (db : SocialDB) (me target : Nat) :
    ((follow_user db me me).2 = db)
    ∧ (me ∈ db.users → (follow_user db me me).1 = FollowOutcome.selfFollow)
    ∧ (target ∈ db.users → target ≠ me → (me, target) ∈ db.follows →
        follow_user db me target = (FollowOutcome.alreadyFollowing, db))
    ∧ ((me, target) ∉ db.follows → unfollow_user db me target = db)
    ∧ (Irreflexive db → Irreflexive (follow_user db me target).2)
    ∧ (db.follows.Nodup → (follow_user db me target).2.follows.Nodup)
    ∧ (Irreflexive db → Irreflexive (unfollow_user db me target))
    ∧ (db.follows.Nodup → (unfollow_user db me target).follows.Nodup) := by
  obtain ⟨us, fs⟩ := db
  have hcases : (follow_user ⟨us, fs⟩ me target).2.follows = fs ∨
      ((follow_user ⟨us, fs⟩ me target).2.follows = fs ++ [(me, target)]
        ∧ target ≠ me ∧ (me, target) ∉ fs) := by
    unfold follow_user
    by_cases h1 : target ∈ us
    · by_cases h2 : target = me
      · left; subst h2; simp [h1]
      · by_cases h3 : (me, target) ∈ fs
        · left; simp [h1, h2, h3]
        · right; exact ⟨by simp [h1, h2, h3], h2, h3⟩
    · left; simp [h1]
  refine ⟨?_, ?_, ?_, ?_, ?_, ?_, ?_, ?_⟩
  · by_cases h : me ∈ us <;> simp [follow_user, h]
  · intro h
    simp [follow_user, h]
  · intro hu hne hf
    simp [follow_user, hu, hne, hf]
  · intro hnf
    unfold unfollow_user
    by_cases hu : target ∈ us
    · have hfe : List.filter (fun e => ¬ (e.1 = me ∧ e.2 = target)) fs = fs := by
        rw [List.filter_eq_self]
        intro e he
        simp only [decide_eq_true_eq]
        rintro ⟨h1, h2⟩
        exact hnf (by rw [← h1, ← h2]; exact he)
      simp only [hu, if_pos]
      rw [hfe]
    · simp [hu]
  · intro hirr
    rcases hcases with h | ⟨h, hne, _⟩
    · intro e he
      rw [h] at he
      exact hirr e he
    · intro e he
      rw [h] at he
      rcases List.mem_append.1 he with he | he
      · exact hirr e he
      · rw [List.mem_singleton] at he
        subst he
        simpa using fun hc => hne hc.symm
  · intro hnd
    rcases hcases with h | ⟨h, _, h3⟩
    · rw [h]; exact hnd
    · rw [h]
      simpa [List.nodup_append] using ⟨hnd, h3⟩
  · intro hirr
    unfold unfollow_user
    by_cases hu : target ∈ us
    · simp only [hu, if_pos]
      intro e he
      exact hirr e (List.mem_of_mem_filter he)
    · simpa [hu] using hirr
  · intro hnd
    unfold unfollow_user
    by_cases hu : target ∈ us
    · simp only [hu, if_pos]
      exact hnd.filter _
    · simpa [hu] using hnd

/-- Concrete instantiation of `follow_unfollow_props`: users `1` and `2`,
with `1` already following `2`. -/
theorem follow_unfollow_props_witness :
    ((1 : Nat) ∈ ([1, 2] : List Nat)
      ∧ follow_user ⟨[1, 2], [(1, 2)]⟩ 1 2 = (FollowOutcome.alreadyFollowing, ⟨[1, 2], [(1, 2)]⟩)
      ∧ (follow_user ⟨[1, 2], [(1, 2)]⟩ 1 1).1 = FollowOutcome.selfFollow)
    ∧ unfollow_user ⟨[1, 2], [(1, 2)]⟩ 2 1 = ⟨[1, 2], [(1, 2)]⟩ := by
  refine ⟨⟨by decide, ?_, ?_⟩, ?_⟩
  · exact (follow_unfollow_props ⟨[1, 2], [(1, 2)]⟩ 1 2).2.2.1 (by decide) (by decide) (by decide)
  · exact (follow_unfollow_props ⟨[1, 2], [(1, 2)]⟩ 1 1).2.1 (by decide)
  · exact (follow_unfollow_props ⟨[1, 2], [(1, 2)]⟩ 2 1).2.2.2.1 (by decide)

end NextQuest.Social

namespace NextQuest.Steam

/-- Claim C8: both the library listing and the common-games comparison
validate their sort parameters against fixed whitelists — a sort key outside
the whitelist silently becomes the default `"name"`, an order outside
`asc`/`desc` becomes `"asc"`, and the `ORDER BY` clause interpolated into
the library query is always one of six fixed strings, never the raw input. -/
theorem sort_params_whitelisted (sort_by sort_order : String) :
    ((Social.common_sort_params sort_by sort_order).1 ∈ Social.common_valid_sorts
      ∧ (¬ sort_by ∈ Social.common_valid_sorts →
          (Social.common_sort_params sort_by sort_order).1 = "name")
      ∧ (Social.common_sort_params sort_by sort_order).2 ∈ ["asc", "desc"]
      ∧ (¬ sort_order ∈ ["asc", "desc"] →
          (Social.common_sort_params sort_by sort_order).2 = "asc"))
    ∧ ((library_sort_params sort_by sort_order).1 ∈ library_valid_sorts.map (·.1)
      ∧ (¬ sort_by ∈ library_valid_sorts.map (·.1) →
          (library_sort_params sort_by sort_order).1 = "name")
      ∧ (library_sort_params sort_by sort_order).2 ∈ ["asc", "desc"]
      ∧ (¬ sort_order ∈ ["asc", "desc"] →
          (library_sort_params sort_by sort_order).2 = "asc")
      ∧ library_order_clause sort_by sort_order ∈
          ["g.name ASC", "g.name DESC", "ugl.playtime_forever ASC",
           "ugl.playtime_forever DESC", "ugl.imported_at ASC", "ugl.imported_at DESC"]) := by
  have ec1 : (Social.common_sort_params sort_by sort_order).1
      = if ¬ sort_by ∈ Social.common_valid_sorts then "name" else sort_by := rfl
  have ec2 : (Social.common_sort_params sort_by sort_order).2
      = if ¬ sort_order ∈ (["asc", "desc"] : List String) then "asc" else sort_order := rfl
  have el1 : (library_sort_params sort_by sort_order).1
      = if ¬ sort_by ∈ library_valid_sorts.map (·.1) then "name" else sort_by := rfl
  have el2 : (library_sort_params sort_by sort_order).2
      = if ¬ sort_order ∈ (["asc", "desc"] : List String) then "asc" else sort_order := rfl
  have hc1 : (Social.common_sort_params sort_by sort_order).1 ∈ Social.common_valid_sorts := by
    rw [ec1]
    by_cases h : sort_by ∈ Social.common_valid_sorts
    · rw [if_neg (not_not_intro h)]; exact h
    · rw [if_pos h]; simp [Social.common_valid_sorts]
  have hc2 : (Social.common_sort_params sort_by sort_order).2 ∈ ["asc", "desc"] := by
    rw [ec2]
    by_cases h : sort_order ∈ (["asc", "desc"] : List String)
    · rw [if_neg (not_not_intro h)]; exact h
    · rw [if_pos h]; simp
  have hl1 : (library_sort_params sort_by sort_order).1 ∈ library_valid_sorts.map (·.1) := by
    rw [el1]
    by_cases h : sort_by ∈ library_valid_sorts.map (·.1)
    · rw [if_neg (not_not_intro h)]; exact h
    · rw [if_pos h]; simp [library_valid_sorts]
  have hl2 : (library_sort_params sort_by sort_order).2 ∈ ["asc", "desc"] := by
    rw [el2]
    by_cases h : sort_order ∈ (["asc", "desc"] : List String)
    · rw [if_neg (not_not_intro h)]; exact h
    · rw [if_pos h]; simp
  have eclause : library_order_clause sort_by sort_order
      = ((library_valid_sorts.find?
            (fun q => q.1 = (library_sort_params sort_by sort_order).1)).map (·.2)).getD ""
          ++ " " ++ pyUpper (library_sort_params sort_by sort_order).2 := rfl
  have hclause : library_order_clause sort_by sort_order ∈
      ["g.name ASC", "g.name DESC", "ugl.playtime_forever ASC",
       "ugl.playtime_forever DESC", "ugl.imported_at ASC", "ugl.imported_at DESC"] := by
    have h1 : (library_sort_params sort_by sort_order).1 = "name"
        ∨ (library_sort_params sort_by sort_order).1 = "playtime"
        ∨ (library_sort_params sort_by sort_order).1 = "imported" := by
      simpa [library_valid_sorts] using hl1
    have h2 : (library_sort_params sort_by sort_order).2 = "asc"
        ∨ (library_sort_params sort_by sort_order).2 = "desc" := by
      simpa using hl2
    rcases h1 with h1 | h1 | h1 <;> rcases h2 with h2 | h2 <;>
      rw [eclause, h1, h2] <;> decide
  refine ⟨⟨hc1, ?_, hc2, ?_⟩, hl1, ?_, hl2, ?_, hclause⟩
  · intro h; rw [ec1, if_pos (by simpa using h)]
  · intro h; rw [ec2, if_pos (by simpa using h)]
  · intro h; rw [el1, if_pos (by simpa using h)]
  · intro h; rw [el2, if_pos (by simpa using h)]

/-- Concrete instantiation of `sort_params_whitelisted` at the
non-whitelisted input `("1; DROP TABLE game", "up")`. -/
theorem sort_params_whitelisted_witness :
    (¬ "1; DROP TABLE game" ∈ Social.common_valid_sorts)
    ∧ (Social.common_sort_params "1; DROP TABLE game" "up").1 = "name"
    ∧ (Social.common_sort_params "1; DROP TABLE game" "up").2 = "asc"
    ∧ (library_sort_params "1; DROP TABLE game" "up").1 = "name"
    ∧ (library_sort_params "1; DROP TABLE game" "up").2 = "asc" := by
  refine ⟨by decide, ?_, ?_, ?_, ?_⟩
  · exact (sort_params_whitelisted "1; DROP TABLE game" "up").1.2.1 (by decide)
  · exact (sort_params_whitelisted "1; DROP TABLE game" "up").1.2.2.2 (by decide)
  · exact (sort_params_whitelisted "1; DROP TABLE game" "up").2.2.1 (by decide)
  · exact (sort_params_whitelisted "1; DROP TABLE game" "up").2.2.2.2.1 (by decide)

end NextQuest.Steam

namespace NextQuest.Steam

/-- Claim C7: Steam identity resolution first strips the profile-URL
markers; a purely numeric remainder is accepted as the canonical id iff it
has exactly 17 digits (otherwise a typed length error), in either case
without consulting the remote vanity oracle; a non-numeric remainder is
sent to the vanity oracle, yielding the canonical id on success code 1 and
an identity-not-found error on success code 42. -/
theorem resolve_steam_id_spec (oracle oracle2 : String → VanityOutcome)
    (key : String) (raw : String) :
    (pyIsDigit (cleanSteamInput raw) = true → (cleanSteamInput raw).length = 17 →
        resolve_steam_id oracle (some key) raw = (some (String.mk (cleanSteamInput raw)), none))
    ∧ (pyIsDigit (cleanSteamInput raw) = true → (cleanSteamInput raw).length ≠ 17 →
        resolve_steam_id oracle (some key) raw
          = (none, some (ResolveErr.invalidIdLength (cleanSteamInput raw).length)))
    ∧ (pyIsDigit (cleanSteamInput raw) = true →
        resolve_steam_id oracle (some key) raw = resolve_steam_id oracle2 (some key) raw)
    ∧ (pyIsDigit (cleanSteamInput raw) = false → ∀ sid,
        oracle (String.mk (cleanSteamInput raw)) = VanityOutcome.response 1 (some sid) →
        resolve_steam_id oracle (some key) raw = (some sid, none))
    ∧ (pyIsDigit (cleanSteamInput raw) = false → ∀ st,
        oracle (String.mk (cleanSteamInput raw)) = VanityOutcome.response 42 st →
        resolve_steam_id oracle (some key) raw = (none, some ResolveErr.vanityNotFound)) := by
  refine ⟨?_, ?_, ?_, ?_, ?_⟩
  · intro hd hl
    simp only [resolve_steam_id, Option.isNone_some, Bool.false_eq_true, if_false, hd,
      if_pos, hl, if_true]
  · intro hd hl
    simp only [resolve_steam_id, Option.isNone_some, Bool.false_eq_true, if_false, hd,
      if_pos, hl, if_true, if_neg hl]
  · intro hd
    simp only [resolve_steam_id, Option.isNone_some, Bool.false_eq_true, if_false, hd, if_pos]
  · intro hd sid hor
    simp only [resolve_steam_id, Option.isNone_some, Bool.false_eq_true, if_false, hd, hor]
    norm_num
  · intro hd st hor
    simp only [resolve_steam_id, Option.isNone_some, Bool.false_eq_true, if_false, hd, hor]
    norm_num

/-- Concrete instantiation of `resolve_steam_id_spec`: a 17-digit profile
URL is stripped and accepted without a remote call, an 8-digit raw id is
rejected with a typed length error, and a vanity name goes through the
oracle. -/
theorem resolve_steam_id_spec_witness :
    pyIsDigit (cleanSteamInput " https://steamcommunity.com/profiles/76561198000000001/ ") = true
    ∧ resolve_steam_id (fun _ => VanityOutcome.reqError) (some "k")
        " https://steamcommunity.com/profiles/76561198000000001/ "
        = (some "76561198000000001", none)
    ∧ resolve_steam_id (fun _ => VanityOutcome.reqError) (some "k") "12345678"
        = (none, some (ResolveErr.invalidIdLength 8))
    ∧ resolve_steam_id (fun _ => VanityOutcome.response 1 (some "76561197960287930")) (some "k")
        "gabelogannewell"
        = (some "76561197960287930", none) := by
  refine ⟨by decide, ?_, ?_, ?_⟩
  · have h := (resolve_steam_id_spec (fun _ => VanityOutcome.reqError)
        (fun _ => VanityOutcome.reqError) "k"
        " https://steamcommunity.com/profiles/76561198000000001/ ").1 (by decide) (by decide)
    rw [h]
    decide
  · have h := (resolve_steam_id_spec (fun _ => VanityOutcome.reqError)
        (fun _ => VanityOutcome.reqError) "k" "12345678").2.1 (by decide) (by decide)
    rw [h]
    decide
  · exact (resolve_steam_id_spec
        (fun _ => VanityOutcome.response 1 (some "76561197960287930"))
        (fun _ => VanityOutcome.reqError) "k" "gabelogannewell").2.2.2.1 (by decide)
        "76561197960287930" rfl

end NextQuest.Steam

namespace NextQuest.Steam

theorem normalizeStep_nodup (acc : List String) (t : String) (h : acc.Nodup) :
    (normalizeStep acc t).Nodup := by
  rcases he : lookupExact t with _ | v
  · rcases hc : lookupCI t with _ | v
    · simpa [normalizeStep, he, hc] using h
    · by_cases hif : v ∈ POPULAR_TAGS ∧ ¬ v ∈ acc
      · simp only [normalizeStep, he, hc, if_pos hif]
        simpa [List.nodup_append] using ⟨h, hif.2⟩
      · simp only [normalizeStep, he, hc, if_neg hif]
        exact h
  · by_cases hif : v ∈ POPULAR_TAGS ∧ ¬ v ∈ acc
    · simp only [normalizeStep, he, if_pos hif]
      simpa [List.nodup_append] using ⟨h, hif.2⟩
    · simp only [normalizeStep, he, if_neg hif]
      exact h

theorem mem_normalizeStep (acc : List String) (t x : String)
    (h : x ∈ normalizeStep acc t) :
    x ∈ acc ∨ (normalizeOne t = some x ∧ x ∈ POPULAR_TAGS) := by
  rcases he : lookupExact t with _ | v
  · rcases hc : lookupCI t with _ | v
    · simp only [normalizeStep, he, hc] at h
      exact Or.inl h
    · by_cases hif : v ∈ POPULAR_TAGS ∧ ¬ v ∈ acc
      · simp only [normalizeStep, he, hc, if_pos hif] at h
        rcases List.mem_append.1 h with h | h
        · exact Or.inl h
        · rw [List.mem_singleton] at h
          subst h
          exact Or.inr ⟨by simp [normalizeOne, he, hc], hif.1⟩
      · simp only [normalizeStep, he, hc, if_neg hif] at h
        exact Or.inl h
  · by_cases hif : v ∈ POPULAR_TAGS ∧ ¬ v ∈ acc
    · simp only [normalizeStep, he, if_pos hif] at h
      rcases List.mem_append.1 h with h | h
      · exact Or.inl h
      · rw [List.mem_singleton] at h
        subst h
        exact Or.inr ⟨by simp [normalizeOne, he], hif.1⟩
    · simp only [normalizeStep, he, if_neg hif] at h
      exact Or.inl h

theorem normalizeStep_mono (acc : List String) (t x : String) (h : x ∈ acc) :
    x ∈ normalizeStep acc t := by
  rcases he : lookupExact t with _ | v
  · rcases hc : lookupCI t with _ | v
    · simpa [normalizeStep, he, hc] using h
    · by_cases hif : v ∈ POPULAR_TAGS ∧ ¬ v ∈ acc
      · simp only [normalizeStep, he, hc, if_pos hif]
        exact List.mem_append_left _ h
      · simp only [normalizeStep, he, hc, if_neg hif]
        exact h
  · by_cases hif : v ∈ POPULAR_TAGS ∧ ¬ v ∈ acc
    · simp only [normalizeStep, he, if_pos hif]
      exact List.mem_append_left _ h
    · simp only [normalizeStep, he, if_neg hif]
      exact h

theorem normalizeStep_adds (acc : List String) (t v : String)
    (h : normalizeOne t = some v) (hp : v ∈ POPULAR_TAGS) :
    v ∈ normalizeStep acc t := by
  by_cases hin : v ∈ acc
  · exact normalizeStep_mono acc t v hin
  · rcases he : lookupExact t with _ | w
    · have hc : lookupCI t = some v := by
        unfold normalizeOne at h
        rw [he] at h
        exact h
      simp only [normalizeStep, he, hc]
      rw [if_pos (show v ∈ POPULAR_TAGS ∧ ¬ v ∈ acc from ⟨hp, hin⟩)]
      exact List.mem_append_right _ (List.mem_singleton.2 rfl)
    · have hw : w = v := by
        unfold normalizeOne at h
        rw [he, Option.some.injEq] at h
        exact h
      simp only [normalizeStep, he]
      rw [hw, if_pos (show v ∈ POPULAR_TAGS ∧ ¬ v ∈ acc from ⟨hp, hin⟩)]
      exact List.mem_append_right _ (List.mem_singleton.2 rfl)

theorem normalize_fold_facts (tags : List String) (acc : List String) :
    (acc.Nodup → (tags.foldl normalizeStep acc).Nodup)
    ∧ (∀ x ∈ tags.foldl normalizeStep acc,
        x ∈ acc ∨ (x ∈ POPULAR_TAGS ∧ ∃ t ∈ tags, normalizeOne t = some x))
    ∧ (∀ x ∈ acc, x ∈ tags.foldl normalizeStep acc)
    ∧ (∀ t ∈ tags, ∀ v, normalizeOne t = some v → v ∈ POPULAR_TAGS →
        v ∈ tags.foldl normalizeStep acc) := by
  induction tags generalizing acc with
  | nil =>
    refine ⟨fun h => h, fun x hx => Or.inl hx, fun x hx => hx, ?_⟩
    intro t ht
    exact absurd ht (List.not_mem_nil t)
  | cons t ts ih =>
    refine ⟨?_, ?_, ?_, ?_⟩
    · intro h
      exact (ih (normalizeStep acc t)).1 (normalizeStep_nodup acc t h)
    · intro x hx
      rcases (ih (normalizeStep acc t)).2.1 x hx with h | ⟨hp, t', ht', hn⟩
      · rcases mem_normalizeStep acc t x h with h | ⟨hn, hp⟩
        · exact Or.inl h
        · exact Or.inr ⟨hp, t, List.mem_cons_self t ts, hn⟩
      · exact Or.inr ⟨hp, t', List.mem_cons_of_mem t ht', hn⟩
    · intro x hx
      exact (ih (normalizeStep acc t)).2.2.1 x (normalizeStep_mono acc t x hx)
    · intro t' ht' v hn hp
      rcases List.mem_cons.1 ht' with h | h
      · subst h
        exact (ih (normalizeStep acc t')).2.2.1 v (normalizeStep_adds acc t' v hn hp)
      · exact (ih (normalizeStep acc t)).2.2.2 t' h v hn hp

theorem normalizeOne_mem_POPULAR (t v : String) (h : normalizeOne t = some v) :
    v ∈ POPULAR_TAGS := by
  have hvals : ∀ kv ∈ tag_mapping, kv.2 ∈ POPULAR_TAGS := by decide
  unfold normalizeOne at h
  rcases he : lookupExact t with _ | w <;> rw [he] at h
  · unfold lookupCI at h
    rcases hf : tag_mapping.find? (fun kv => pyLower kv.1 = pyLower t) with _ | kv <;>
      rw [hf] at h
    · exact absurd h (by simp)
    · rw [Option.map_some', Option.some.injEq] at h
      subst h
      exact hvals kv (List.mem_of_find?_eq_some hf)
  · rw [Option.some.injEq] at h
    subst h
    unfold lookupExact at he
    rcases hf : tag_mapping.find? (fun kv => kv.1 = t) with _ | kv <;> rw [hf] at he
    · exact absurd he (by simp)
    · rw [Option.map_some', Option.some.injEq] at he
      subst he
      exact hvals kv (List.mem_of_find?_eq_some hf)

/-- Claim C9: tag normalization resolves each raw string through the alias
table (exact match first, case-insensitive second), drops every unmapped
string, and returns a duplicate-free list all of whose elements belong to
the fixed 24-tag vocabulary; every successfully mapped input does appear in
the result. -/
theorem normalize_tags_spec (tags : List String) :
    (normalize_tags tags).Nodup
    ∧ (∀ x ∈ normalize_tags tags, x ∈ POPULAR_TAGS)
    ∧ (∀ x ∈ normalize_tags tags, ∃ t ∈ tags, normalizeOne t = some x)
    ∧ (∀ t ∈ tags, ∀ v, normalizeOne t = some v → v ∈ normalize_tags tags)
    ∧ POPULAR_TAGS.length = 24 := by
  have h := normalize_fold_facts tags []
  refine ⟨h.1 List.nodup_nil, ?_, ?_, ?_, by decide⟩
  · intro x hx
    rcases h.2.1 x hx with hc | ⟨hp, _⟩
    · exact absurd hc (List.not_mem_nil x)
    · exact hp
  · intro x hx
    rcases h.2.1 x hx with hc | ⟨_, t, ht, hn⟩
    · exact absurd hc (List.not_mem_nil x)
    · exact ⟨t, ht, hn⟩
  · intro t ht v hn
    exact h.2.2.2 t ht v hn (normalizeOne_mem_POPULAR t v hn)

/-- Concrete instantiation of `normalize_tags_spec`: aliases, a
case-insensitive match, an unmapped string and a duplicate. -/
theorem normalize_tags_spec_witness :
    ("Role-playing" ∈ ["Role-playing", "first-person shooter", "Gibberish", "RPG"]
      ∧ normalizeOne "Role-playing" = some "RPG"
      ∧ "RPG" ∈ normalize_tags ["Role-playing", "first-person shooter", "Gibberish", "RPG"])
    ∧ normalize_tags ["Role-playing", "first-person shooter", "Gibberish", "RPG"]
        = ["RPG", "FPS"] := by
  refine ⟨⟨by decide, by decide, ?_⟩, by decide⟩
  exact (normalize_tags_spec ["Role-playing", "first-person shooter", "Gibberish", "RPG"]).2.2.2.1
    "Role-playing" (by decide) "RPG" (by decide)

end NextQuest.Steam

namespace NextQuest.Epic

theorem lacksName_entryOfItem (item : JVal) (h : lacksName item = true) :
    entryOfItem item = none := by
  cases item with
  | obj f =>
    rcases hn : nameOf f with _ | v
    · simp only [entryOfItem, extractEntry, hn]
    · simp only [lacksName, hn] at h
      have hv : truthy v = false := by
        simpa using h
      simp only [entryOfItem, extractEntry, hn, hv, Bool.false_eq_true, if_false]
  | null => rfl
  | bool b => rfl
  | num n => rfl
  | str s => rfl
  | arr l => rfl

/-- Claim C6: the Epic manifest parser is a total function — within a
recognized array batch, an entry without a truthy name under any accepted
alias contributes nothing and does not fail the batch (removing it changes
nothing), and unparseable text none of whose lines yields a recognizable
key/value game entry produces the empty result (Python `None`), not an
exception. -/
theorem parse_epic_manifest_spec :
    (∀ (pre post : List JVal) (bad : JVal) (text : String), lacksName bad = true →
        resultGames (parse_epic_manifest (some (JVal.arr (pre ++ bad :: post))) text)
          = resultGames (parse_epic_manifest (some (JVal.arr (pre ++ post))) text))
    ∧ (∀ text : String,
        (∀ l ∈ splitChar (Char.ofNat 10) text.data, lineEntry l = none) →
        parse_epic_manifest none text = none) := by
  constructor
  · intro pre post bad text hbad
    have hb : entryOfItem bad = none := lacksName_entryOfItem bad hbad
    have hl : (pre ++ bad :: post).filterMap entryOfItem
        = (pre ++ post).filterMap entryOfItem := by
      simp [List.filterMap_append, List.filterMap_cons, hb]
    simp only [parse_epic_manifest, hl]
  · intro text hnone
    have hempty : (splitChar (Char.ofNat 10) text.data).filterMap lineEntry = [] := by
      rw [List.filterMap_eq_nil_iff]
      exact hnone
    show fallbackParse text = none
    simp only [fallbackParse, hempty]
    rfl

/-- Concrete instantiation of `parse_epic_manifest_spec`: a two-entry batch
whose second entry has no name alias parses to the same single game as the
batch without it, and free text with no quoted key/value pair parses to
nothing. -/
theorem parse_epic_manifest_spec_witness :
    lacksName (JVal.obj [("foo", JVal.str "x")]) = true
    ∧ resultGames (parse_epic_manifest
        (some (JVal.arr [JVal.obj [("name", JVal.str "Hades")],
                         JVal.obj [("foo", JVal.str "x")]])) "")
      = resultGames (parse_epic_manifest
        (some (JVal.arr [JVal.obj [("name", JVal.str "Hades")]])) "")
    ∧ (resultGames (parse_epic_manifest
        (some (JVal.arr [JVal.obj [("name", JVal.str "Hades")],
                         JVal.obj [("foo", JVal.str "x")]])) "")).length = 1
    ∧ parse_epic_manifest none "this is not a manifest" = none := by
  refine ⟨rfl, ?_, rfl, ?_⟩
  · exact parse_epic_manifest_spec.1 [JVal.obj [("name", JVal.str "Hades")]] []
      (JVal.obj [("foo", JVal.str "x")]) "" rfl
  · refine parse_epic_manifest_spec.2 "this is not a manifest" ?_
    intro l hl
    have hs : splitChar (Char.ofNat 10) ("this is not a manifest" : String).data
        = [("this is not a manifest" : String).data] := rfl
    rw [hs, List.mem_singleton] at hl
    subst hl
    rfl

end NextQuest.Epic

namespace NextQuest.SteamImport

theorem find?_append_some {α : Type} (p : α → Bool) (l l' : List α) (a : α)
    (h : l.find? p = some a) : (l ++ l').find? p = some a := by
  induction l with
  | nil => simp at h
  | cons x xs ih =>
    by_cases hx : p x
    · rw [List.find?_cons_of_pos _ hx] at h
      rw [List.cons_append, List.find?_cons_of_pos _ hx]
      exact h
    · rw [List.find?_cons_of_neg _ hx] at h
      rw [List.cons_append, List.find?_cons_of_neg _ hx]
      exact ih h

theorem find?_append_none {α : Type} (p : α → Bool) (l l' : List α)
    (h : l.find? p = none) : (l ++ l').find? p = l'.find? p := by
  induction l with
  | nil => simp
  | cons x xs ih =>
    by_cases hx : p x
    · rw [List.find?_cons_of_pos _ hx] at h
      exact absurd h (by simp)
    · rw [List.find?_cons_of_neg _ hx] at h
      rw [List.cons_append, List.find?_cons_of_neg _ hx]
      exact ih h

theorem find_map_games (l : List GameRow) (k : String) :
    (l.find? (fun r => r.appid = k ∧ r.platform = "steam")).map (·.id)
      = ((l.map (fun r => (r.id, r.appid, r.platform))).find?
          (fun p => p.2.1 = k ∧ p.2.2 = "steam")).map (·.1) := by
  induction l with
  | nil => rfl
  | cons r rs ih =>
    by_cases h : (r.appid = k ∧ r.platform = "steam")
    · rw [List.map_cons, List.find?_cons_of_pos _ (by simpa using h),
        List.find?_cons_of_pos _ (by simpa using h)]
      rfl
    · rw [List.map_cons, List.find?_cons_of_neg _ (by simpa using h),
        List.find?_cons_of_neg _ (by simpa using h)]
      exact ih

theorem findGameId_eq_keys (db : DB) (k : String) :
    findGameId db k
      = ((gkeys db).find? (fun p => p.2.1 = k ∧ p.2.2 = "steam")).map (·.1) :=
  find_map_games db.games k

theorem gkeys_congr (db db' : DB) (h : db'.games = db.games) : gkeys db' = gkeys db := by
  unfold gkeys
  rw [h]

theorem lkeys_congr (db db' : DB) (h : db'.lib = db.lib) : lkeys db' = lkeys db := by
  unfold lkeys
  rw [h]

theorem findGameId_congr (db db' : DB) (k : String) (h : db'.games = db.games) :
    findGameId db' k = findGameId db k := by
  unfold findGameId
  rw [h]

theorem keysPresent_of_keys_eq (u : Nat) (db db' : DB) (gd : GameData)
    (hg : gkeys db' = gkeys db) (hl : lkeys db' = lkeys db)
    (h : KeysPresent u db gd) : KeysPresent u db' gd := by
  obtain ⟨gid, h1, h2⟩ := h
  refine ⟨gid, ?_, ?_⟩
  · rw [findGameId_eq_keys, hg, ← findGameId_eq_keys]
    exact h1
  · rw [hl]
    exact h2

theorem gameKeyTaken_iff (db : DB) (k : String) :
    gameKeyTaken db k = true ↔ ∃ r ∈ db.games, r.appid = k ∧ r.platform = "steam" := by
  simp [gameKeyTaken, List.any_eq_true]

theorem libKeyTaken_iff (db : DB) (u gid : Nat) :
    libKeyTaken db u gid = true ↔ (u, gid) ∈ lkeys db := by
  simp only [libKeyTaken, List.any_eq_true, lkeys, List.mem_map, decide_eq_true_eq]
  constructor
  · rintro ⟨l, hl, h1, h2⟩
    exact ⟨l, hl, by rw [h1, h2]⟩
  · rintro ⟨l, hl, h⟩
    rw [Prod.mk.injEq] at h
    exact ⟨l, hl, h.1, h.2⟩

theorem upsertGame_lib (db : DB) (gd : GameData) : (upsertGame db gd).lib = db.lib := by
  unfold upsertGame
  by_cases h : gameKeyTaken db (toString gd.appid)
  · rw [if_pos h]
  · rw [if_neg h]

theorem upsertGame_taken (db : DB) (gd : GameData)
    (h : gameKeyTaken db (toString gd.appid) = true) :
    gkeys (upsertGame db gd) = gkeys db := by
  unfold upsertGame
  rw [if_pos h]
  unfold gkeys
  rw [List.map_map]
  apply List.map_congr_left
  intro r _
  by_cases hc : (r.appid = toString gd.appid ∧ r.platform = "steam")
  · simp [hc]
  · simp [hc]

theorem upsertGame_new (db : DB) (gd : GameData)
    (h : ¬ gameKeyTaken db (toString gd.appid) = true) :
    gkeys (upsertGame db gd)
      = gkeys db ++ [(db.nextId, toString gd.appid, "steam")] := by
  unfold upsertGame
  rw [if_neg h]
  unfold gkeys
  simp

theorem upsertLib_games (db : DB) (u gid pt t : Nat) :
    (upsertLib db u gid pt t).games = db.games := by
  unfold upsertLib
  by_cases h : libKeyTaken db u gid
  · rw [if_pos h]
  · rw [if_neg h]

theorem upsertLib_lkeys_taken (db : DB) (u gid pt t : Nat)
    (h : libKeyTaken db u gid = true) :
    lkeys (upsertLib db u gid pt t) = lkeys db := by
  unfold upsertLib
  rw [if_pos h]
  unfold lkeys
  rw [List.map_map]
  apply List.map_congr_left
  intro l _
  by_cases hc : (l.userId = u ∧ l.gameId = gid)
  · simp [hc]
  · simp [hc]

theorem upsertLib_lkeys_new (db : DB) (u gid pt t : Nat)
    (h : ¬ libKeyTaken db u gid = true) :
    lkeys (upsertLib db u gid pt t) = lkeys db ++ [(u, gid)] := by
  unfold upsertLib
  rw [if_neg h]
  unfold lkeys
  simp

end NextQuest.SteamImport

namespace NextQuest.SteamImport

theorem findGameId_upsertGame_self (db : DB) (gd : GameData) :
    ∃ gid, findGameId (upsertGame db gd) (toString gd.appid) = some gid := by
  by_cases ht : gameKeyTaken db (toString gd.appid)
  · have hkeys := upsertGame_taken db gd ht
    obtain ⟨r, hr, hpr⟩ := (gameKeyTaken_iff db (toString gd.appid)).1 ht
    have hsome : (findGameId db (toString gd.appid)).isSome := by
      have hf : (db.games.find?
          (fun r => r.appid = toString gd.appid ∧ r.platform = "steam")).isSome := by
        rw [List.find?_isSome]
        exact ⟨r, hr, by simpa using hpr⟩
      obtain ⟨a, ha⟩ := Option.isSome_iff_exists.1 hf
      unfold findGameId
      rw [ha]
      rfl
    obtain ⟨gid, hgid⟩ := Option.isSome_iff_exists.1 hsome
    refine ⟨gid, ?_⟩
    rw [findGameId_eq_keys, hkeys, ← findGameId_eq_keys]
    exact hgid
  · refine ⟨db.nextId, ?_⟩
    have hnone : (gkeys db).find?
        (fun p => p.2.1 = toString gd.appid ∧ p.2.2 = "steam") = none := by
      rw [List.find?_eq_none]
      intro p hp
      obtain ⟨r, hr, hpr⟩ := List.mem_map.1 hp
      intro hcon
      apply ht
      rw [gameKeyTaken_iff]
      refine ⟨r, hr, ?_⟩
      have := hcon
      rw [← hpr] at this
      simpa using this
    rw [findGameId_eq_keys, upsertGame_new db gd ht, find?_append_none _ _ _ hnone]
    simp

theorem importStep_some (u t : Nat) (db : DB) (gd : GameData) :
    ∃ db' gid, importStep u t db gd = some db'
      ∧ findGameId (upsertGame db gd) (toString gd.appid) = some gid
      ∧ db' = upsertLib (upsertGame db gd) u gid gd.playtime t := by
  obtain ⟨gid, hgid⟩ := findGameId_upsertGame_self db gd
  exact ⟨upsertLib (upsertGame db gd) u gid gd.playtime t, gid, by
    simp only [importStep, hgid], hgid, rfl⟩

theorem importStep_estab (u t : Nat) (db db' : DB) (gd : GameData)
    (hstep : importStep u t db gd = some db') : KeysPresent u db' gd := by
  obtain ⟨db'', gid, hs, hgid, hshape⟩ := importStep_some u t db gd
  rw [hstep] at hs
  injection hs with hs
  subst hs
  subst hshape
  refine ⟨gid, ?_, ?_⟩
  · rw [findGameId_congr _ _ _ (upsertLib_games _ u gid gd.playtime t)]
    exact hgid
  · by_cases hl : libKeyTaken (upsertGame db gd) u gid
    · rw [upsertLib_lkeys_taken _ u gid gd.playtime t hl]
      exact (libKeyTaken_iff _ u gid).1 hl
    · rw [upsertLib_lkeys_new _ u gid gd.playtime t hl]
      exact List.mem_append_right _ (List.mem_singleton.2 rfl)

theorem importStep_mono (u t : Nat) (db db' : DB) (gd : GameData)
    (hstep : importStep u t db gd = some db') (gd0 : GameData)
    (hk : KeysPresent u db gd0) : KeysPresent u db' gd0 := by
  obtain ⟨db'', gid, hs, hgid, hshape⟩ := importStep_some u t db gd
  rw [hstep] at hs
  injection hs with hs
  subst hs
  subst hshape
  obtain ⟨gid0, h1, h2⟩ := hk
  refine ⟨gid0, ?_, ?_⟩
  · rw [findGameId_congr _ _ _ (upsertLib_games _ u gid gd.playtime t)]
    rw [findGameId_eq_keys]
    rw [findGameId_eq_keys] at h1
    obtain ⟨key, hkey, hid⟩ := Option.map_eq_some'.1 h1
    by_cases ht : gameKeyTaken db (toString gd.appid)
    · rw [upsertGame_taken db gd ht, hkey]
      rw [Option.map_some']
      rw [hid]
    · rw [upsertGame_new db gd ht, find?_append_some _ _ _ _ hkey,
        Option.map_some', hid]
  · have hmem : (u, gid0) ∈ lkeys (upsertGame db gd) := by
      rw [lkeys_congr _ _ (upsertGame_lib db gd)]
      exact h2
    by_cases hl : libKeyTaken (upsertGame db gd) u gid
    · rw [upsertLib_lkeys_taken _ u gid gd.playtime t hl]
      exact hmem
    · rw [upsertLib_lkeys_new _ u gid gd.playtime t hl]
      exact List.mem_append_left _ hmem

theorem import_preserves (u t : Nat) (gds : List GameData) (db db1 : DB)
    (h : import_library u t db gds = some db1) (gd0 : GameData)
    (hk : KeysPresent u db gd0) : KeysPresent u db1 gd0 := by
  induction gds generalizing db with
  | nil =>
    have : db = db1 := by
      simpa [import_library] using h
    rw [← this]
    exact hk
  | cons gd gds ih =>
    rw [import_library, List.foldlM_cons] at h
    obtain ⟨db', hstep, hrest⟩ := Option.bind_eq_some.1 h
    exact ih db' hrest (importStep_mono u t db db' gd hstep gd0 hk)

theorem import_establishes (u t : Nat) (gds : List GameData) (db db1 : DB)
    (h : import_library u t db gds = some db1) :
    ∀ gd ∈ gds, KeysPresent u db1 gd := by
  induction gds generalizing db with
  | nil =>
    intro gd hgd
    exact absurd hgd (List.not_mem_nil gd)
  | cons gd gds ih =>
    rw [import_library, List.foldlM_cons] at h
    obtain ⟨db', hstep, hrest⟩ := Option.bind_eq_some.1 h
    intro gd0 hgd0
    rcases List.mem_cons.1 hgd0 with heq | hmem
    · subst heq
      exact import_preserves u t gds db' db1 hrest gd0 (importStep_estab u t db db' gd0 hstep)
    · exact ih db' hrest gd0 hmem

theorem importStep_stable (u t : Nat) (db : DB) (gd : GameData)
    (h : KeysPresent u db gd) :
    ∃ db', importStep u t db gd = some db'
      ∧ gkeys db' = gkeys db ∧ lkeys db' = lkeys db := by
  obtain ⟨gid, hfind, hlib⟩ := h
  have ht : gameKeyTaken db (toString gd.appid) = true := by
    rw [gameKeyTaken_iff]
    obtain ⟨r, hr, hid⟩ := Option.map_eq_some'.1 hfind
    exact ⟨r, List.mem_of_find?_eq_some hr, by simpa using List.find?_some hr⟩
  have hgk : gkeys (upsertGame db gd) = gkeys db := upsertGame_taken db gd ht
  have hfind1 : findGameId (upsertGame db gd) (toString gd.appid) = some gid := by
    rw [findGameId_eq_keys, hgk, ← findGameId_eq_keys]
    exact hfind
  have hlk : lkeys (upsertGame db gd) = lkeys db :=
    lkeys_congr _ _ (upsertGame_lib db gd)
  have hlt : libKeyTaken (upsertGame db gd) u gid = true := by
    rw [libKeyTaken_iff, hlk]
    exact hlib
  refine ⟨upsertLib (upsertGame db gd) u gid gd.playtime t, ?_, ?_, ?_⟩
  · simp only [importStep, hfind1]
  · rw [gkeys_congr _ _ (upsertLib_games _ u gid gd.playtime t)]
    exact hgk
  · rw [upsertLib_lkeys_taken _ u gid gd.playtime t hlt]
    exact hlk

theorem import_stable (u t : Nat) (gds : List GameData) (db : DB)
    (h : ∀ gd ∈ gds, KeysPresent u db gd) :
    ∃ db2, import_library u t db gds = some db2
      ∧ gkeys db2 = gkeys db ∧ lkeys db2 = lkeys db := by
  induction gds generalizing db with
  | nil => exact ⟨db, rfl, rfl, rfl⟩
  | cons gd gds ih =>
    obtain ⟨db', hstep, hg, hl⟩ :=
      importStep_stable u t db gd (h gd (List.mem_cons_self gd gds))
    obtain ⟨db2, hrest, hg2, hl2⟩ := ih db' (fun gd0 hgd0 =>
      keysPresent_of_keys_eq u db db' gd0 hg hl (h gd0 (List.mem_cons_of_mem gd hgd0)))
    refine ⟨db2, ?_, hg2.trans hg, hl2.trans hl⟩
    rw [import_library, List.foldlM_cons, hstep]
    simpa [import_library] using hrest

/-- Claim C4: re-importing the same game list for the same user is
idempotent on row counts — the second import succeeds, inserts no new
`game` row and no new `user_game_library` row, and leaves the identifying
columns `(id, appid, platform)` resp. `(user, game)` of every row unchanged
(so it can only update the remaining columns: playtime, name, images, and
`imported_at`). -/
theorem import_library_idempotent (u t1 t2 : Nat) (db db1 : DB) (gds : List GameData)
    (h : import_library u t1 db gds = some db1) :
    ∃ db2, import_library u t2 db1 gds = some db2
      ∧ db2.games.length = db1.games.length
      ∧ db2.lib.length = db1.lib.length
      ∧ gkeys db2 = gkeys db1
      ∧ lkeys db2 = lkeys db1 := by
  obtain ⟨db2, h2, hg, hl⟩ :=
    import_stable u t2 gds db1 (import_establishes u t1 gds db db1 h)
  refine ⟨db2, h2, ?_, ?_, hg, hl⟩
  · have := congrArg List.length hg
    simpa [gkeys] using this
  · have := congrArg List.length hl
    simpa [lkeys] using this

/-- Concrete instantiation of `import_library_idempotent`: importing two
games into an empty store and then importing the same list again. -/
theorem import_library_idempotent_witness :
    import_library 7 10 ⟨[], [], 1⟩
        [⟨440, "TF2", 100, "", ""⟩, ⟨570, "Dota", 5, "", ""⟩]
      = some ⟨[⟨1, "440", "TF2", "steam", 100, "", ""⟩,
               ⟨2, "570", "Dota", "steam", 5, "", ""⟩],
              [⟨7, 1, 100, 10⟩, ⟨7, 2, 5, 10⟩], 3⟩
    ∧ ∃ db2, import_library 7 20
        ⟨[⟨1, "440", "TF2", "steam", 100, "", ""⟩,
          ⟨2, "570", "Dota", "steam", 5, "", ""⟩],
         [⟨7, 1, 100, 10⟩, ⟨7, 2, 5, 10⟩], 3⟩
        [⟨440, "TF2", 100, "", ""⟩, ⟨570, "Dota", 5, "", ""⟩] = some db2
      ∧ db2.games.length = 2 ∧ db2.lib.length = 2 := by
  refine ⟨by decide, ?_⟩
  obtain ⟨db2, h2, hg, hl, _, _⟩ := import_library_idempotent 7 10 20
    ⟨[], [], 1⟩
    ⟨[⟨1, "440", "TF2", "steam", 100, "", ""⟩,
      ⟨2, "570", "Dota", "steam", 5, "", ""⟩],
     [⟨7, 1, 100, 10⟩, ⟨7, 2, 5, 10⟩], 3⟩
    [⟨440, "TF2", 100, "", ""⟩, ⟨570, "Dota", 5, "", ""⟩] (by decide)
  exact ⟨db2, h2, by rw [hg]; rfl, by rw [hl]; rfl⟩

end NextQuest.SteamImport

namespace NextQuest

theorem dlookup_cons {α : Type} (p : Nat × α) (d : List (Nat × α)) (k : Nat) :
    dlookup (p :: d) k = if p.1 = k then some p.2 else dlookup d k := by
  unfold dlookup
  by_cases h : p.1 = k
  · rw [List.find?_cons_of_pos _ (by simpa using h), if_pos h]
    rfl
  · rw [List.find?_cons_of_neg _ (by simpa using h), if_neg h]

theorem dmem_false_dlookup {α : Type} (d : List (Nat × α)) (k : Nat)
    (h : ¬ dmem d k = true) : dlookup d k = none := by
  unfold dlookup
  rw [List.find?_eq_none.2]
  · rfl
  · intro p hp
    simp only [decide_eq_true_eq]
    intro hc
    exact h (List.any_eq_true.2 ⟨p, hp, by simpa using hc⟩)

theorem dmem_true_dlookup {α : Type} (d : List (Nat × α)) (k : Nat)
    (h : dmem d k = true) : ∃ v, dlookup d k = some v := by
  obtain ⟨p, hp, hk⟩ := List.any_eq_true.1 h
  have hs : (d.find? (fun p => p.1 = k)).isSome := by
    rw [List.find?_isSome]
    exact ⟨p, hp, hk⟩
  obtain ⟨a, ha⟩ := Option.isSome_iff_exists.1 hs
  exact ⟨a.2, by unfold dlookup; rw [ha]; rfl⟩

theorem dlookup_append_single {α : Type} (d : List (Nat × α)) (k k' : Nat) (v : α) :
    dlookup (d ++ [(k, v)]) k'
      = match dlookup d k' with
        | some x => some x
        | none => if k = k' then some v else none := by
  induction d with
  | nil =>
    rw [List.nil_append, dlookup_cons]
    rfl
  | cons p ps ih =>
    rw [List.cons_append, dlookup_cons, dlookup_cons]
    by_cases h : p.1 = k'
    · rw [if_pos h, if_pos h]
    · rw [if_neg h, if_neg h]
      exact ih

theorem dlookup_dupdate {α : Type} (d : List (Nat × α)) (k0 : Nat) (f : α → α) (k : Nat) :
    dlookup (dupdate d k0 f) k
      = if k = k0 then (dlookup d k).map f else dlookup d k := by
  induction d with
  | nil =>
    by_cases h : k = k0 <;> simp [dupdate, dlookup, h]
  | cons p ps ih =>
    unfold dupdate
    rw [List.map_cons]
    by_cases h0 : p.1 = k0
    · rw [if_pos h0, dlookup_cons, dlookup_cons]
      by_cases hk : k = k0
      · rw [if_pos (show k0 = k from hk.symm), if_pos hk, if_pos (h0.trans hk.symm)]
        rfl
      · rw [if_neg (fun hc => hk hc.symm), if_neg hk, if_neg (fun hc => hk (h0 ▸ hc).symm)]
        have := ih
        unfold dupdate at this
        rw [this, if_neg hk]
    · rw [if_neg h0, dlookup_cons, dlookup_cons]
      by_cases hp : p.1 = k
      · rw [if_pos hp, if_pos hp]
        rw [if_neg (fun hc : k = k0 => h0 (hp.trans hc))]
      · rw [if_neg hp, if_neg hp]
        have hthis := ih
        unfold dupdate at hthis
        rw [hthis]

theorem dkeys_dupdate {α : Type} (d : List (Nat × α)) (k0 : Nat) (f : α → α) :
    dkeys (dupdate d k0 f) = dkeys d := by
  unfold dkeys dupdate
  rw [List.map_map]
  apply List.map_congr_left
  intro p _
  by_cases h : p.1 = k0
  · simp [h]
  · simp [h]

theorem dmem_eq_keys {α : Type} (d : List (Nat × α)) (k : Nat) :
    dmem d k = (dkeys d).any (fun x => x = k) := by
  induction d with
  | nil => rfl
  | cons p ps ih =>
    unfold dmem dkeys
    simp only [List.any_cons, List.map_cons]
    unfold dmem dkeys at ih
    rw [ih]

theorem dmem_dupdate {α : Type} (d : List (Nat × α)) (k0 : Nat) (f : α → α) (k : Nat) :
    dmem (dupdate d k0 f) k = dmem d k := by
  rw [dmem_eq_keys, dmem_eq_keys, dkeys_dupdate]

theorem dlookup_map_val {α β : Type} (d : List (Nat × α)) (f : α → β) (k : Nat) :
    dlookup (d.map (fun p => (p.1, f p.2))) k = (dlookup d k).map f := by
  induction d with
  | nil => rfl
  | cons p ps ih =>
    rw [List.map_cons, dlookup_cons, dlookup_cons]
    by_cases h : p.1 = k
    · rw [if_pos h, if_pos h]
      rfl
    · rw [if_neg h, if_neg h]
      exact ih

theorem dkeys_map_val {α β : Type} (d : List (Nat × α)) (f : α → β) :
    dkeys (d.map (fun p => (p.1, f p.2))) = dkeys d := by
  unfold dkeys
  rw [List.map_map]
  rfl

theorem mem_iff_dlookup {α : Type} (d : List (Nat × α)) (k : Nat) (v : α)
    (h : (dkeys d).Nodup) : (k, v) ∈ d ↔ dlookup d k = some v := by
  induction d with
  | nil => simp [dlookup]
  | cons p ps ih =>
    obtain ⟨a, b⟩ := p
    have hdk : dkeys ((a, b) :: ps) = a :: dkeys ps := rfl
    rw [hdk] at h
    have hn1 : a ∉ dkeys ps := (List.nodup_cons.1 h).1
    have hn2 : (dkeys ps).Nodup := (List.nodup_cons.1 h).2
    rw [dlookup_cons, List.mem_cons]
    by_cases hp : a = k
    · rw [if_pos hp]
      constructor
      · rintro (heq | hm)
        · rw [Prod.mk.injEq] at heq
          rw [heq.2]
        · exfalso
          apply hn1
          rw [hp]
          show k ∈ dkeys ps
          unfold dkeys
          exact List.mem_map_of_mem (fun x => x.1) hm
      · intro hv
        rw [Option.some.injEq] at hv
        left
        rw [← hp, ← hv]
    · rw [if_neg hp, ih hn2]
      constructor
      · rintro (heq | hm)
        · rw [Prod.mk.injEq] at heq
          exact absurd heq.1.symm hp
        · exact hm
      · exact fun hv => Or.inr hv

end NextQuest

namespace NextQuest.Recs

theorem dmem_cons {α : Type} (p : Nat × α) (d : List (Nat × α)) (k : Nat) :
    dmem (p :: d) k = (decide (p.1 = k) || dmem d k) := by
  unfold dmem
  rw [List.any_cons]

theorem dlookup_some_dmem {α : Type} (d : List (Nat × α)) (k : Nat) (v : α)
    (h : dlookup d k = some v) : dmem d k = true := by
  by_cases hm : dmem d k
  · exact hm
  · rw [dmem_false_dlookup d k hm] at h
    exact absurd h (by simp)

theorem mem_followedQuery (db : RecDB) (uid f : Nat) (g : Game)
    (h : g ∈ followedQuery db uid f) :
    g ∈ db.games ∧ notExcl db uid g.id = true := by
  unfold followedQuery at h
  obtain ⟨inner, hinner, hg⟩ := List.mem_flatten.1 h
  obtain ⟨l, _, hl⟩ := List.mem_map.1 hinner
  rw [← hl] at hg
  have := List.mem_filter.1 hg
  refine ⟨this.1, ?_⟩
  have h2 := this.2
  simp only [decide_eq_true_eq] at h2
  exact h2.2

theorem mem_tagQuery (db : RecDB) (uid : Nat) (t : String) (g : Game)
    (h : g ∈ tagQuery db uid t) :
    g ∈ db.games ∧ notExcl db uid g.id = true := by
  unfold tagQuery at h
  obtain ⟨inner, hinner, hg⟩ := List.mem_flatten.1 h
  obtain ⟨gt, _, hgt⟩ := List.mem_map.1 hinner
  rw [← hgt] at hg
  have := List.mem_filter.1 hg
  refine ⟨this.1, ?_⟩
  have h2 := this.2
  simp only [decide_eq_true_eq] at h2
  exact h2.2

theorem mem_followedQuery_ids (db : RecDB) (uid f k : Nat) :
    k ∈ (followedQuery db uid f).map (·.id)
      ↔ ∃ l ∈ db.lib, l.userId = f ∧ l.gameId = k
          ∧ (∃ g ∈ db.games, g.id = k) ∧ notExcl db uid k = true := by
  unfold followedQuery
  constructor
  · intro h
    obtain ⟨g, hg, hgk⟩ := List.mem_map.1 h
    obtain ⟨inner, hinner, hgin⟩ := List.mem_flatten.1 hg
    obtain ⟨l, hlm, hl⟩ := List.mem_map.1 hinner
    rw [← hl] at hgin
    have hf := List.mem_filter.1 hgin
    have hfl := List.mem_filter.1 hlm
    simp only [decide_eq_true_eq] at hf hfl
    refine ⟨l, hfl.1, hfl.2, ?_, ⟨g, hf.1, hgk⟩, ?_⟩
    · rw [← hgk]
      exact hf.2.1.symm
    · rw [← hgk]
      exact hf.2.2
  · rintro ⟨l, hlm, hluid, hlgid, ⟨g, hgm, hgk⟩, hex⟩
    rw [List.mem_map]
    refine ⟨g, ?_, hgk⟩
    rw [List.mem_flatten]
    refine ⟨db.games.filter (fun g => g.id = l.gameId ∧ notExcl db uid g.id), ?_, ?_⟩
    · rw [List.mem_map]
      refine ⟨l, ?_, rfl⟩
      rw [List.mem_filter]
      exact ⟨hlm, by simpa using hluid⟩
    · rw [List.mem_filter]
      refine ⟨hgm, ?_⟩
      simp only [decide_eq_true_eq]
      rw [hgk]
      exact ⟨hlgid.symm, hex⟩

theorem mem_tagQuery_ids (db : RecDB) (uid : Nat) (t : String) (k : Nat) :
    k ∈ (tagQuery db uid t).map (·.id)
      ↔ (k, t) ∈ db.gameTags ∧ (∃ g ∈ db.games, g.id = k) ∧ notExcl db uid k = true := by
  unfold tagQuery
  constructor
  · intro h
    obtain ⟨g, hg, hgk⟩ := List.mem_map.1 h
    obtain ⟨inner, hinner, hgin⟩ := List.mem_flatten.1 hg
    obtain ⟨gt, hgtm, hgt⟩ := List.mem_map.1 hinner
    rw [← hgt] at hgin
    have hf := List.mem_filter.1 hgin
    have hft := List.mem_filter.1 hgtm
    simp only [decide_eq_true_eq] at hf hft
    have hk1 : gt.1 = k := by rw [← hgk]; exact hf.2.1.symm
    refine ⟨?_, ⟨g, hf.1, hgk⟩, ?_⟩
    · have : gt = (k, t) := by
        obtain ⟨a, b⟩ := gt
        simp only [Prod.mk.injEq]
        exact ⟨hk1, hft.2⟩
      rw [← this]
      exact hft.1
    · rw [← hgk]
      exact hf.2.2
  · rintro ⟨hmem, ⟨g, hgm, hgk⟩, hex⟩
    rw [List.mem_map]
    refine ⟨g, ?_, hgk⟩
    rw [List.mem_flatten]
    refine ⟨db.games.filter (fun x => x.id = (k, t).1 ∧ notExcl db uid x.id), ?_, ?_⟩
    · rw [List.mem_map]
      refine ⟨(k, t), ?_, rfl⟩
      rw [List.mem_filter]
      exact ⟨hmem, by simp⟩
    · rw [List.mem_filter]
      refine ⟨hgm, ?_⟩
      simp only [decide_eq_true_eq]
      rw [hgk]
      exact ⟨rfl, hex⟩

end NextQuest.Recs

namespace NextQuest.Recs

theorem dmem_dinsfold {α : Type} (gs : List Game) (vf : Game → α)
    (d : List (Nat × α)) (k : Nat) :
    (dmem (gs.foldl (fun d g => dinsertNew d g.id (vf g)) d) k = true
      ↔ dmem d k = true ∨ k ∈ gs.map (·.id)) := by
  induction gs generalizing d with
  | nil => simp
  | cons g gs ih =>
    rw [List.foldl_cons, ih, dmem_dinsertNew, List.map_cons, List.mem_cons]
    simp only [Bool.or_eq_true, decide_eq_true_eq]
    tauto

theorem dinsfold_keys_nodup {α : Type} (gs : List Game) (vf : Game → α)
    (d : List (Nat × α)) (h : (dkeys d).Nodup) :
    (dkeys (gs.foldl (fun d g => dinsertNew d g.id (vf g)) d)).Nodup := by
  induction gs generalizing d with
  | nil => exact h
  | cons g gs ih =>
    rw [List.foldl_cons]
    exact ih _ (dkeys_dinsertNew_nodup d g.id (vf g) h)

theorem dinsfold_wf {α : Type} (P : Nat × α → Prop) (gs : List Game) (vf : Game → α)
    (d : List (Nat × α)) (hd : ∀ p ∈ d, P p) (hg : ∀ g ∈ gs, P (g.id, vf g)) :
    ∀ p ∈ gs.foldl (fun d g => dinsertNew d g.id (vf g)) d, P p := by
  induction gs generalizing d with
  | nil => exact hd
  | cons g gs ih =>
    rw [List.foldl_cons]
    refine ih _ ?_ (fun g' hg' => hg g' (List.mem_cons_of_mem g hg'))
    intro p hp
    unfold dinsertNew at hp
    by_cases hm : dmem d g.id
    · rw [if_pos hm] at hp
      exact hd p hp
    · rw [if_neg hm] at hp
      rcases List.mem_append.1 hp with hp | hp
      · exact hd p hp
      · rw [List.mem_singleton] at hp
        rw [hp]
        exact hg g (List.mem_cons_self g gs)

theorem dmem_fdict_fold (db : RecDB) (uid : Nat) (fs : List Nat)
    (d : List (Nat × FollowEntry)) (k : Nat) :
    (dmem (fs.foldl (fun d f => (followedQuery db uid f).foldl
        (fun d g => dinsertNew d g.id ⟨g, 0, "Played by followed users"⟩) d) d) k = true
      ↔ dmem d k = true ∨ ∃ f ∈ fs, k ∈ (followedQuery db uid f).map (·.id)) := by
  induction fs generalizing d with
  | nil => simp
  | cons f fs ih =>
    rw [List.foldl_cons, ih, dmem_dinsfold]
    constructor
    · rintro ((h | h) | ⟨f', hf', h⟩)
      · exact Or.inl h
      · exact Or.inr ⟨f, List.mem_cons_self f fs, h⟩
      · exact Or.inr ⟨f', List.mem_cons_of_mem f hf', h⟩
    · rintro (h | ⟨f', hf', h⟩)
      · exact Or.inl (Or.inl h)
      · rcases List.mem_cons.1 hf' with heq | hmem
        · rw [heq] at h
          exact Or.inl (Or.inr h)
        · exact Or.inr ⟨f', hmem, h⟩

theorem fdict_keys_nodup (db : RecDB) (uid : Nat) :
    (dkeys (followed_user_games db uid)).Nodup := by
  unfold followed_user_games
  by_cases h : (user_tags db uid).isEmpty
  · rw [if_pos h]
    exact List.nodup_nil
  · rw [if_neg h]
    generalize (db.follows.filter (fun e => e.1 = uid)).map (·.2) = fs
    have hgen : ∀ (fs : List Nat) (d : List (Nat × FollowEntry)), (dkeys d).Nodup →
        (dkeys (fs.foldl (fun d f => (followedQuery db uid f).foldl
          (fun d g => dinsertNew d g.id ⟨g, 0, "Played by followed users"⟩) d) d)).Nodup := by
      intro fs
      induction fs with
      | nil => exact fun d h => h
      | cons f fs ih =>
        intro d hd
        rw [List.foldl_cons]
        exact ih _ (dinsfold_keys_nodup _ _ d hd)
    exact hgen fs [] List.nodup_nil

theorem fdict_wf (db : RecDB) (uid : Nat) :
    ∀ p ∈ followed_user_games db uid,
      p.2.game.id = p.1 ∧ p.2.game ∈ db.games ∧ notExcl db uid p.1 = true := by
  unfold followed_user_games
  by_cases h : (user_tags db uid).isEmpty
  · rw [if_pos h]
    intro p hp
    exact absurd hp (List.not_mem_nil p)
  · rw [if_neg h]
    generalize (db.follows.filter (fun e => e.1 = uid)).map (·.2) = fs
    have hgen : ∀ (fs : List Nat) (d : List (Nat × FollowEntry)),
        (∀ p ∈ d, p.2.game.id = p.1 ∧ p.2.game ∈ db.games ∧ notExcl db uid p.1 = true) →
        ∀ p ∈ fs.foldl (fun d f => (followedQuery db uid f).foldl
          (fun d g => dinsertNew d g.id ⟨g, 0, "Played by followed users"⟩) d) d,
          p.2.game.id = p.1 ∧ p.2.game ∈ db.games ∧ notExcl db uid p.1 = true := by
      intro fs
      induction fs with
      | nil => exact fun d h => h
      | cons f fs ih =>
        intro d hd
        rw [List.foldl_cons]
        refine ih _ (dinsfold_wf _ _ _ d hd ?_)
        intro g hg
        have := mem_followedQuery db uid f g hg
        exact ⟨rfl, this.1, this.2⟩
    exact hgen fs [] (fun p hp => absurd hp (List.not_mem_nil p))

end NextQuest.Recs

namespace NextQuest.Recs

theorem scoreAt_tagAdd (d : List (Nat × TagEntry)) (g : Game) (t : String) (w : Rat) (k : Nat) :
    scoreAt (tagAdd d g t w) k = scoreAt d k + (if k = g.id then w else 0) := by
  unfold tagAdd scoreAt
  rw [dlookup_dupdate]
  by_cases hk : k = g.id
  · rw [if_pos hk, if_pos hk, hk]
    by_cases hm : dmem d g.id
    · rw [show dinsertNew d g.id ⟨g, 0, []⟩ = d from by unfold dinsertNew; rw [if_pos hm]]
      obtain ⟨v, hv⟩ := dmem_true_dlookup d g.id hm
      rw [hv]
      rfl
    · rw [show dinsertNew d g.id ⟨g, 0, []⟩ = d ++ [(g.id, ⟨g, 0, []⟩)] from by
        unfold dinsertNew; rw [if_neg hm]]
      rw [dlookup_append_single, dmem_false_dlookup d g.id hm]
      simp
  · rw [if_neg hk, if_neg hk, add_zero]
    by_cases hm : dmem d g.id
    · rw [show dinsertNew d g.id ⟨g, 0, []⟩ = d from by unfold dinsertNew; rw [if_pos hm]]
    · rw [show dinsertNew d g.id ⟨g, 0, []⟩ = d ++ [(g.id, ⟨g, 0, []⟩)] from by
        unfold dinsertNew; rw [if_neg hm]]
      rw [dlookup_append_single]
      cases hl : dlookup d k
      · rw [if_neg (fun hc : g.id = k => hk hc.symm)]
      · rfl

theorem dmem_tagAdd (d : List (Nat × TagEntry)) (g : Game) (t : String) (w : Rat) (k : Nat) :
    dmem (tagAdd d g t w) k = (dmem d k || decide (k = g.id)) := by
  unfold tagAdd
  rw [dmem_dupdate, dmem_dinsertNew]

theorem tagAdd_keys_nodup (d : List (Nat × TagEntry)) (g : Game) (t : String) (w : Rat)
    (h : (dkeys d).Nodup) : (dkeys (tagAdd d g t w)).Nodup := by
  unfold tagAdd
  rw [dkeys_dupdate]
  exact dkeys_dinsertNew_nodup d g.id _ h

theorem tagAdd_wf (db : RecDB) (uid : Nat) (d : List (Nat × TagEntry)) (g : Game)
    (t : String) (w : Rat)
    (hd : ∀ p ∈ d, p.2.game.id = p.1 ∧ p.2.game ∈ db.games ∧ notExcl db uid p.1 = true)
    (hg : g ∈ db.games) (hex : notExcl db uid g.id = true) :
    ∀ p ∈ tagAdd d g t w, p.2.game.id = p.1 ∧ p.2.game ∈ db.games ∧ notExcl db uid p.1 = true := by
  unfold tagAdd dupdate
  intro p hp
  obtain ⟨q, hq, hpq⟩ := List.mem_map.1 hp
  have hq' : q.2.game.id = q.1 ∧ q.2.game ∈ db.games ∧ notExcl db uid q.1 = true := by
    unfold dinsertNew at hq
    by_cases hm : dmem d g.id
    · rw [if_pos hm] at hq
      exact hd q hq
    · rw [if_neg hm] at hq
      rcases List.mem_append.1 hq with hq | hq
      · exact hd q hq
      · rw [List.mem_singleton] at hq
        rw [hq]
        exact ⟨rfl, hg, hex⟩
  by_cases hqk : q.1 = g.id
  · rw [if_pos hqk] at hpq
    rw [← hpq]
    refine ⟨?_, hq'.2.1, ?_⟩
    · rw [← hqk]
      exact hq'.1
    · rw [← hqk]
      exact hq'.2.2
  · rw [if_neg hqk] at hpq
    rw [← hpq]
    exact hq' 

theorem scoreAt_tagfold_inner (db : RecDB) (uid : Nat) (t : String) (w : Rat)
    (gs : List Game) (d : List (Nat × TagEntry)) (k : Nat) :
    scoreAt (gs.foldl (fun d g => tagAdd d g t w) d) k
      = scoreAt d k + w * (((gs.map (·.id)).count k : Nat) : Rat) := by
  induction gs generalizing d with
  | nil => simp
  | cons g gs ih =>
    rw [List.foldl_cons, ih, scoreAt_tagAdd, List.map_cons, List.count_cons]
    by_cases hk : k = g.id
    · rw [if_pos hk, if_pos (by simpa using hk.symm)]
      push_cast
      ring
    · rw [if_neg hk, if_neg (by simpa using fun hc : g.id = k => hk hc.symm)]
      push_cast
      ring

theorem dmem_tagfold_inner (t : String) (w : Rat) (gs : List Game)
    (d : List (Nat × TagEntry)) (k : Nat) :
    (dmem (gs.foldl (fun d g => tagAdd d g t w) d) k = true
      ↔ dmem d k = true ∨ k ∈ gs.map (·.id)) := by
  induction gs generalizing d with
  | nil => simp
  | cons g gs ih =>
    rw [List.foldl_cons, ih, dmem_tagAdd, List.map_cons, List.mem_cons]
    simp only [Bool.or_eq_true, decide_eq_true_eq]
    tauto

theorem tagfold_inner_keys_nodup (t : String) (w : Rat) (gs : List Game)
    (d : List (Nat × TagEntry)) (h : (dkeys d).Nodup) :
    (dkeys (gs.foldl (fun d g => tagAdd d g t w) d)).Nodup := by
  induction gs generalizing d with
  | nil => exact h
  | cons g gs ih =>
    rw [List.foldl_cons]
    exact ih _ (tagAdd_keys_nodup d g t w h)

theorem tagfold_inner_wf (db : RecDB) (uid : Nat) (t : String) (w : Rat)
    (gs : List Game) (d : List (Nat × TagEntry))
    (hd : ∀ p ∈ d, p.2.game.id = p.1 ∧ p.2.game ∈ db.games ∧ notExcl db uid p.1 = true)
    (hgs : ∀ g ∈ gs, g ∈ db.games ∧ notExcl db uid g.id = true) :
    ∀ p ∈ gs.foldl (fun d g => tagAdd d g t w) d,
      p.2.game.id = p.1 ∧ p.2.game ∈ db.games ∧ notExcl db uid p.1 = true := by
  induction gs generalizing d with
  | nil => exact hd
  | cons g gs ih =>
    rw [List.foldl_cons]
    refine ih _ ?_ (fun g' hg' => hgs g' (List.mem_cons_of_mem g hg'))
    have hg := hgs g (List.mem_cons_self g gs)
    exact tagAdd_wf db uid d g t w hd hg.1 hg.2

theorem scoreAt_tagfold_outer (db : RecDB) (uid : Nat) (uts : List (String × Rat))
    (d : List (Nat × TagEntry)) (k : Nat) :
    scoreAt (uts.foldl (fun d tw => (tagQuery db uid tw.1).foldl
        (fun d g => tagAdd d g tw.1 tw.2) d) d) k
      = scoreAt d k + (uts.map (fun tw =>
          tw.2 * ((((tagQuery db uid tw.1).map (·.id)).count k : Nat) : Rat))).sum := by
  induction uts generalizing d with
  | nil => simp
  | cons tw uts ih =>
    rw [List.foldl_cons, ih, scoreAt_tagfold_inner db uid, List.map_cons, List.sum_cons]
    ring

theorem dmem_tagfold_outer (db : RecDB) (uid : Nat) (uts : List (String × Rat))
    (d : List (Nat × TagEntry)) (k : Nat) :
    (dmem (uts.foldl (fun d tw => (tagQuery db uid tw.1).foldl
        (fun d g => tagAdd d g tw.1 tw.2) d) d) k = true
      ↔ dmem d k = true ∨ ∃ tw ∈ uts, k ∈ (tagQuery db uid tw.1).map (·.id)) := by
  induction uts generalizing d with
  | nil => simp
  | cons tw uts ih =>
    rw [List.foldl_cons, ih, dmem_tagfold_inner]
    constructor
    · rintro ((h | h) | ⟨tw', htw', h⟩)
      · exact Or.inl h
      · exact Or.inr ⟨tw, List.mem_cons_self tw uts, h⟩
      · exact Or.inr ⟨tw', List.mem_cons_of_mem tw htw', h⟩
    · rintro (h | ⟨tw', htw', h⟩)
      · exact Or.inl (Or.inl h)
      · rcases List.mem_cons.1 htw' with heq | hmem
        · rw [heq] at h
          exact Or.inl (Or.inr h)
        · exact Or.inr ⟨tw', hmem, h⟩

theorem tagdict_keys_nodup (db : RecDB) (uid : Nat) :
    (dkeys (tag_based_games db uid)).Nodup := by
  unfold tag_based_games
  by_cases h : (user_tags db uid).isEmpty
  · rw [if_pos h]
    exact List.nodup_nil
  · rw [if_neg h]
    generalize user_tags db uid = uts
    have hgen : ∀ (uts : List (String × Rat)) (d : List (Nat × TagEntry)), (dkeys d).Nodup →
        (dkeys (uts.foldl (fun d tw => (tagQuery db uid tw.1).foldl
          (fun d g => tagAdd d g tw.1 tw.2) d) d)).Nodup := by
      intro uts
      induction uts with
      | nil => exact fun d h => h
      | cons tw uts ih =>
        intro d hd
        rw [List.foldl_cons]
        exact ih _ (tagfold_inner_keys_nodup _ _ _ d hd)
    exact hgen uts [] List.nodup_nil

theorem tagdict_wf (db : RecDB) (uid : Nat) :
    ∀ p ∈ tag_based_games db uid,
      p.2.game.id = p.1 ∧ p.2.game ∈ db.games ∧ notExcl db uid p.1 = true := by
  unfold tag_based_games
  by_cases h : (user_tags db uid).isEmpty
  · rw [if_pos h]
    intro p hp
    exact absurd hp (List.not_mem_nil p)
  · rw [if_neg h]
    generalize user_tags db uid = uts
    have hgen : ∀ (uts : List (String × Rat)) (d : List (Nat × TagEntry)),
        (∀ p ∈ d, p.2.game.id = p.1 ∧ p.2.game ∈ db.games ∧ notExcl db uid p.1 = true) →
        ∀ p ∈ uts.foldl (fun d tw => (tagQuery db uid tw.1).foldl
          (fun d g => tagAdd d g tw.1 tw.2) d) d,
          p.2.game.id = p.1 ∧ p.2.game ∈ db.games ∧ notExcl db uid p.1 = true := by
      intro uts
      induction uts with
      | nil => exact fun d h => h
      | cons tw uts ih =>
        intro d hd
        rw [List.foldl_cons]
        exact ih _ (tagfold_inner_wf db uid _ _ _ d hd
          (fun g hg => mem_tagQuery db uid tw.1 g hg))
    exact hgen uts [] (fun p hp => absurd hp (List.not_mem_nil p))

end NextQuest.Recs

namespace NextQuest.Recs

theorem filter_id_ids (db : RecDB) (uid : Nat) (l : List Game) (gid : Nat)
    (h : (l.map (·.id)).Nodup) :
    (l.filter (fun g => g.id = gid ∧ notExcl db uid g.id)).map (·.id)
      = if l.any (fun g => g.id = gid) = true ∧ notExcl db uid gid = true
        then [gid] else [] := by
  induction l with
  | nil => simp
  | cons g gs ih =>
    have hnd : (gs.map (·.id)).Nodup := (List.nodup_cons.1 (by simpa using h)).2
    have hgid : g.id ∉ gs.map (·.id) := (List.nodup_cons.1 (by simpa using h)).1
    rw [List.any_cons]
    by_cases hc : g.id = gid
    · have hany : gs.any (fun x => x.id = gid) = false := by
        rw [List.any_eq_false]
        intro x hx
        simp only [decide_eq_true_eq]
        intro hxc
        exact hgid (by
          rw [← hxc] at hc
          rw [hc]
          exact List.mem_map_of_mem (fun y => y.id) hx)
      by_cases hex : notExcl db uid gid = true
      · rw [List.filter_cons_of_pos (by
          simp only [decide_eq_true_eq]
          exact ⟨hc, by rw [hc]; exact hex⟩), List.map_cons, ih hnd]
        rw [hany]
        simp [hc, hex]
      · rw [List.filter_cons_of_neg (by
          simp only [decide_eq_true_eq]
          exact fun hcc => hex (hc ▸ hcc.2)), ih hnd]
        simp [hex]
    · rw [List.filter_cons_of_neg (by
        simp only [decide_eq_true_eq]
        exact fun hcc => hc hcc.1), ih hnd]
      have hor : (decide (g.id = gid) || gs.any fun x => decide (x.id = gid))
          = gs.any (fun x => decide (x.id = gid)) := by
        simp [hc]
      rw [hor]

theorem gts_count (db : RecDB) (uid : Nat) (gts : List (Nat × String)) (k : Nat)
    (hn : (gts.map (·.1)).Nodup)
    (h1 : (db.games.map (·.id)).Nodup) :
    (((gts.map (fun gt => db.games.filter
        (fun g => g.id = gt.1 ∧ notExcl db uid g.id))).flatten).map (·.id)).count k
      = if gts.any (fun gt => gt.1 = k) = true
            ∧ db.games.any (fun g => g.id = k) = true
            ∧ notExcl db uid k = true then 1 else 0 := by
  induction gts with
  | nil => simp
  | cons gt gts ih =>
    have hnd : (gts.map (·.1)).Nodup := (List.nodup_cons.1 (by simpa using hn)).2
    have hgt : gt.1 ∉ gts.map (·.1) := (List.nodup_cons.1 (by simpa using hn)).1
    rw [List.map_cons, List.flatten_cons, List.map_append, List.count_append,
      filter_id_ids db uid _ _ h1, ih hnd, List.any_cons]
    have hS1 : (if db.games.any (fun g => g.id = gt.1) = true ∧ notExcl db uid gt.1 = true
        then [gt.1] else []).count k
        = if gt.1 = k ∧ db.games.any (fun g => g.id = k) = true ∧ notExcl db uid k = true
          then 1 else 0 := by
      by_cases hC : db.games.any (fun g => g.id = gt.1) = true ∧ notExcl db uid gt.1 = true
      · rw [if_pos hC]
        by_cases hk : gt.1 = k
        · rw [if_pos ⟨hk, by rw [← hk]; exact hC.1, by rw [← hk]; exact hC.2⟩, hk]
          simp
        · rw [if_neg (fun hc => hk hc.1)]
          rw [List.count_eq_zero]
          simp only [List.mem_singleton]
          exact fun hc => hk hc.symm
      · rw [if_neg hC]
        by_cases hk : gt.1 = k
        · rw [if_neg (fun hc => hC ⟨by rw [hk]; exact hc.2.1, by rw [hk]; exact hc.2.2⟩)]
          rfl
        · rw [if_neg (fun hc => hk hc.1)]
          rfl
    rw [hS1]
    by_cases hk : gt.1 = k
    · have hrest : gts.any (fun q => q.1 = k) = false := by
        rw [List.any_eq_false]
        intro q hq
        simp only [decide_eq_true_eq]
        intro hqc
        exact hgt (by
          rw [hk, ← hqc]
          exact List.mem_map_of_mem (fun y => y.1) hq)
      rw [hrest]
      by_cases hAB : db.games.any (fun g => g.id = k) = true ∧ notExcl db uid k = true
      · rw [if_pos ⟨hk, hAB⟩]
        rw [if_neg (by simp)]
        rw [if_pos (by simp [hk, hAB.1, hAB.2])]
      · rw [if_neg (fun hc => hAB hc.2)]
        rw [if_neg (by simp)]
        rw [if_neg (fun hc => hAB hc.2)]
    · rw [if_neg (fun hc => hk hc.1)]
      have hor : (decide (gt.1 = k) || gts.any fun q => decide (q.1 = k))
          = gts.any (fun q => decide (q.1 = k)) := by
        simp [hk]
      rw [hor]
      simp

end NextQuest.Recs

namespace NextQuest.Recs

theorem filtered_firsts_nodup (db : RecDB) (t : String) (h2 : db.gameTags.Nodup) :
    ((db.gameTags.filter (fun gt => gt.2 = t)).map (·.1)).Nodup := by
  refine List.Nodup.map_on ?_ (h2.filter _)
  intro x hx y hy hxy
  have hx2 := List.mem_filter.1 hx
  have hy2 := List.mem_filter.1 hy
  obtain ⟨a, b⟩ := x
  obtain ⟨c, d⟩ := y
  simp only [decide_eq_true_eq] at hx2 hy2
  simp only at hxy
  rw [Prod.mk.injEq]
  exact ⟨hxy, hx2.2.trans hy2.2.symm⟩

theorem tagQuery_ids_count (db : RecDB) (uid : Nat) (t : String) (k : Nat)
    (h1 : (db.games.map (·.id)).Nodup) (h2 : db.gameTags.Nodup) :
    ((tagQuery db uid t).map (·.id)).count k
      = if (k, t) ∈ db.gameTags ∧ db.games.any (fun g => g.id = k) = true
            ∧ notExcl db uid k = true then 1 else 0 := by
  unfold tagQuery
  rw [gts_count db uid _ k (filtered_firsts_nodup db t h2) h1]
  have hiff : ((db.gameTags.filter (fun gt => gt.2 = t)).any (fun gt => gt.1 = k) = true)
      ↔ (k, t) ∈ db.gameTags := by
    rw [List.any_eq_true]
    constructor
    · rintro ⟨gt, hgt, hk⟩
      have hf := List.mem_filter.1 hgt
      simp only [decide_eq_true_eq] at hf hk
      obtain ⟨a, b⟩ := gt
      simp only at hk hf
      rw [← hk, ← hf.2]
      exact hf.1
    · intro hm
      refine ⟨(k, t), ?_, by simp⟩
      rw [List.mem_filter]
      exact ⟨hm, by simp⟩
  by_cases hm : (k, t) ∈ db.gameTags
  · by_cases hrest : db.games.any (fun g => g.id = k) = true ∧ notExcl db uid k = true
    · rw [if_pos ⟨hiff.2 hm, hrest⟩, if_pos ⟨hm, hrest⟩]
    · rw [if_neg (fun hc => hrest hc.2), if_neg (fun hc => hrest hc.2)]
  · rw [if_neg (fun hc => hm (hiff.1 hc.1)), if_neg (fun hc => hm hc.1)]

end NextQuest.Recs

namespace NextQuest

theorem dictfold_eq {κ α : Type} [DecidableEq κ] (l : List (κ × α)) (d : List (κ × α))
    (h : ((d.map (·.1)) ++ (l.map (·.1))).Nodup) :
    l.foldl (fun d p => dictUpd d p.1 p.2) d = d ++ l := by
  induction l generalizing d with
  | nil => simp
  | cons p ps ih =>
    rw [List.foldl_cons]
    have hni : ¬ d.any (fun q => q.1 = p.1) = true := by
      intro hc
      obtain ⟨q, hq, hqe⟩ := List.any_eq_true.1 hc
      simp only [decide_eq_true_eq] at hqe
      have hdisj := (List.nodup_append.1 h).2.2
      exact hdisj (List.mem_map_of_mem (fun x => x.1) hq)
        (by rw [hqe, List.map_cons]; exact List.mem_cons_self p.1 _)
    rw [show dictUpd d p.1 p.2 = d ++ [(p.1, p.2)] from by unfold dictUpd; rw [if_neg hni]]
    have hre : ((d ++ [(p.1, p.2)]).map (·.1) ++ ps.map (·.1)).Nodup := by
      rw [List.map_append]
      have : (d.map (·.1) ++ ([(p.1, p.2)].map (·.1) ++ ps.map (·.1))).Nodup := by
        simpa using h
      rw [List.append_assoc]
      exact this
    rw [ih _ hre, List.append_assoc]
    rfl

theorem dictOfList_nodup {κ α : Type} [DecidableEq κ] (l : List (κ × α))
    (h : (l.map (·.1)).Nodup) : dictOfList l = l := by
  unfold dictOfList
  rw [dictfold_eq l [] (by simpa using h)]
  rfl

end NextQuest

namespace NextQuest.Recs

theorem user_tags_eq (db : RecDB) (uid : Nat)
    (h3 : ((db.prefs.filter (fun r => r.userId = uid)).map (·.tag)).Nodup) :
    user_tags db uid
      = (db.prefs.filter (fun r => r.userId = uid)).map (fun r => (r.tag, r.weight)) := by
  unfold user_tags
  apply dictOfList_nodup
  rw [List.map_map]
  exact h3

theorem sum_ut_eq_prefTagSum (db : RecDB) (uid k : Nat)
    (h1 : (db.games.map (·.id)).Nodup) (h2 : db.gameTags.Nodup)
    (h3 : ((db.prefs.filter (fun r => r.userId = uid)).map (·.tag)).Nodup)
    (hrow : db.games.any (fun g => g.id = k) = true)
    (hex : notExcl db uid k = true) :
    ((user_tags db uid).map (fun tw =>
        tw.2 * ((((tagQuery db uid tw.1).map (·.id)).count k : Nat) : Rat))).sum
      = prefTagSum db uid k := by
  rw [user_tags_eq db uid h3]
  unfold prefTagSum
  generalize db.prefs.filter (fun r => r.userId = uid) = l
  induction l with
  | nil => simp
  | cons r rs ih =>
    rw [List.map_cons, List.map_cons, List.sum_cons, ih]
    rw [tagQuery_ids_count db uid r.tag k h1 h2]
    by_cases hm : (k, r.tag) ∈ db.gameTags
    · rw [if_pos ⟨hm, hrow, hex⟩]
      rw [List.filter_cons_of_pos (by
        rw [List.any_eq_true]
        exact ⟨(k, r.tag), hm, by simp⟩)]
      rw [List.map_cons, List.sum_cons]
      push_cast
      ring
    · rw [if_neg (fun hc => hm hc.1)]
      rw [List.filter_cons_of_neg (by
        rw [List.any_eq_true]
        rintro ⟨gt, hgt, hge⟩
        simp only [decide_eq_true_eq] at hge
        apply hm
        obtain ⟨a, b⟩ := gt
        simp only at hge
        rw [← hge.1, ← hge.2]
        exact hgt)]
      push_cast
      ring

theorem dmem_fdict (db : RecDB) (uid k : Nat)
    (hne : ¬ (user_tags db uid).isEmpty = true) :
    (dmem (followed_user_games db uid) k = true
      ↔ followedOwns db uid k = true
          ∧ (∃ g ∈ db.games, g.id = k) ∧ notExcl db uid k = true) := by
  unfold followed_user_games
  rw [if_neg hne]
  rw [dmem_fdict_fold]
  constructor
  · rintro (h | ⟨f, hf, h⟩)
    · rw [show dmem ([] : List (Nat × FollowEntry)) k = false from rfl] at h
      exact absurd h (by simp)
    · obtain ⟨e, he, hfe⟩ := List.mem_map.1 hf
      have hef := List.mem_filter.1 he
      simp only [decide_eq_true_eq] at hef
      obtain ⟨l, hl, hluid, hlgid, hrow, hex⟩ := (mem_followedQuery_ids db uid f k).1 h
      refine ⟨?_, hrow, hex⟩
      rw [followedOwns, List.any_eq_true]
      refine ⟨e, hef.1, ?_⟩
      simp only [decide_eq_true_eq]
      refine ⟨hef.2, ?_⟩
      rw [List.any_eq_true]
      exact ⟨l, hl, by
        simp only [decide_eq_true_eq]
        rw [← hfe] at hluid
        exact ⟨hluid, hlgid⟩⟩
  · rintro ⟨hown, hrow, hex⟩
    right
    rw [followedOwns, List.any_eq_true] at hown
    obtain ⟨e, he, hee⟩ := hown
    simp only [decide_eq_true_eq] at hee
    obtain ⟨l, hl, hle⟩ := List.any_eq_true.1 hee.2
    simp only [decide_eq_true_eq] at hle
    refine ⟨e.2, ?_, ?_⟩
    · rw [List.mem_map]
      refine ⟨e, ?_, rfl⟩
      rw [List.mem_filter]
      exact ⟨he, by simpa using hee.1⟩
    · rw [mem_followedQuery_ids]
      exact ⟨l, hl, hle.1, hle.2, hrow, hex⟩

theorem dmem_tagdict (db : RecDB) (uid k : Nat)
    (hne : ¬ (user_tags db uid).isEmpty = true) :
    (dmem (tag_based_games db uid) k = true
      ↔ ∃ tw ∈ user_tags db uid, k ∈ (tagQuery db uid tw.1).map (·.id)) := by
  unfold tag_based_games
  rw [if_neg hne]
  rw [dmem_tagfold_outer]
  constructor
  · rintro (h | h)
    · rw [show dmem ([] : List (Nat × TagEntry)) k = false from rfl] at h
      exact absurd h (by simp)
    · exact h
  · exact fun h => Or.inr h

theorem scoreAt_tagdict (db : RecDB) (uid k : Nat)
    (hne : ¬ (user_tags db uid).isEmpty = true) :
    scoreAt (tag_based_games db uid) k
      = ((user_tags db uid).map (fun tw =>
          tw.2 * ((((tagQuery db uid tw.1).map (·.id)).count k : Nat) : Rat))).sum := by
  unfold tag_based_games
  rw [if_neg hne]
  rw [scoreAt_tagfold_outer]
  have : scoreAt ([] : List (Nat × TagEntry)) k = 0 := rfl
  rw [this, zero_add]

end NextQuest.Recs

namespace NextQuest.Recs

theorem dlookup_baseRecs (db : RecDB) (uid k : Nat) :
    (dlookup (baseRecs db uid) k).map (fun e => (e.score, e.game))
      = (dlookup (tag_based_games db uid) k).map (fun e => (e.score, e.game)) := by
  unfold baseRecs
  rw [dlookup_map_val]
  cases dlookup (tag_based_games db uid) k <;> rfl

theorem baseRecs_keys (db : RecDB) (uid : Nat) :
    dkeys (baseRecs db uid) = dkeys (tag_based_games db uid) := by
  unfold baseRecs
  rw [dkeys_map_val]

theorem baseRecs_none_iff (db : RecDB) (uid k : Nat) :
    dlookup (baseRecs db uid) k = none ↔ dlookup (tag_based_games db uid) k = none := by
  unfold baseRecs
  rw [dlookup_map_val]
  cases dlookup (tag_based_games db uid) k <;> simp

theorem boost_lookup (fD : List (Nat × FollowEntry)) (d : List (Nat × RecEntry)) (k : Nat)
    (hnd : (dkeys fD).Nodup) :
    (dlookup (fD.foldl boostStep d) k).map (fun e => (e.score, e.game))
      = match dlookup d k with
        | some e => some (e.score + (if dmem fD k then (5 : Rat) else 0), e.game)
        | none => (dlookup fD k).map (fun fe => ((5 : Rat), fe.game)) := by
  induction fD generalizing d with
  | nil =>
    show (dlookup d k).map (fun e => (e.score, e.game)) = _
    cases h : dlookup d k
    · rfl
    · rw [show dmem ([] : List (Nat × FollowEntry)) k = false from rfl]
      simp
  | cons p rest ih =>
    obtain ⟨k0, fe⟩ := p
    have hdk : dkeys ((k0, fe) :: rest) = k0 :: dkeys rest := rfl
    rw [hdk] at hnd
    have hk0 : k0 ∉ dkeys rest := (List.nodup_cons.1 hnd).1
    have hndr : (dkeys rest).Nodup := (List.nodup_cons.1 hnd).2
    have hrmem : dmem rest k0 = false := by
      by_cases hc : dmem rest k0
      · exact absurd ((dmem_iff rest k0).1 hc) hk0
      · exact Bool.eq_false_iff.2 hc
    rw [List.foldl_cons, ih _ hndr]
    by_cases hd0 : dmem d k0
    · have hb : boostStep d (k0, fe)
          = dupdate d k0 (fun e => ⟨e.game, e.score + 5, boostReason e.reason⟩) := by
        unfold boostStep
        rw [if_pos hd0]
      rw [hb]
      by_cases hk : k = k0
      · obtain ⟨v, hv⟩ := dmem_true_dlookup d k0 hd0
        rw [hk, dlookup_dupdate, if_pos rfl, hv]
        rw [show dlookup ((k0, fe) :: rest) k0 = some fe from by
          rw [dlookup_cons, if_pos rfl]]
        rw [hrmem]
        rw [show dmem ((k0, fe) :: rest) k0 = true from by
          rw [dmem_cons]
          simp]
        simp
      · rw [dlookup_dupdate, if_neg hk]
        have hkk : decide (k0 = k) = false := by
          simp only [decide_eq_false_iff_not]
          exact fun hc => hk hc.symm
        rw [show dmem ((k0, fe) :: rest) k = dmem rest k from by
          rw [dmem_cons, hkk, Bool.false_or]]
        rw [show dlookup ((k0, fe) :: rest) k = dlookup rest k from by
          rw [dlookup_cons, if_neg (fun hc : k0 = k => hk hc.symm)]]
    · have hb : boostStep d (k0, fe) = d ++ [(k0, ⟨fe.game, 5, fe.reason⟩)] := by
        unfold boostStep
        rw [if_neg hd0]
      rw [hb]
      by_cases hk : k = k0
      · rw [hk, dlookup_append_single, dmem_false_dlookup d k0 hd0]
        rw [show dlookup ((k0, fe) :: rest) k0 = some fe from by
          rw [dlookup_cons, if_pos rfl]]
        rw [hrmem]
        rw [show dmem ((k0, fe) :: rest) k0 = true from by
          rw [dmem_cons]
          simp]
        simp
      · rw [dlookup_append_single]
        have hkk : decide (k0 = k) = false := by
          simp only [decide_eq_false_iff_not]
          exact fun hc => hk hc.symm
        rw [show dmem ((k0, fe) :: rest) k = dmem rest k from by
          rw [dmem_cons, hkk, Bool.false_or]]
        rw [show dlookup ((k0, fe) :: rest) k = dlookup rest k from by
          rw [dlookup_cons, if_neg (fun hc : k0 = k => hk hc.symm)]]
        cases hdl : dlookup d k
        · rw [if_neg (fun hc : k0 = k => hk hc.symm)]
        · rfl

theorem boostfold_keys_nodup (fD : List (Nat × FollowEntry)) (d : List (Nat × RecEntry))
    (h : (dkeys d).Nodup) : (dkeys (fD.foldl boostStep d)).Nodup := by
  induction fD generalizing d with
  | nil => exact h
  | cons p rest ih =>
    rw [List.foldl_cons]
    refine ih _ ?_
    unfold boostStep
    by_cases hm : dmem d p.1
    · rw [if_pos hm, dkeys_dupdate]
      exact h
    · rw [if_neg hm]
      have hk : p.1 ∉ dkeys d := fun hc => hm ((dmem_iff d p.1).2 hc)
      rw [dkeys, List.map_append, List.nodup_append]
      refine ⟨h, by simp, ?_⟩
      intro x hx
      simp only [List.map_cons, List.map_nil, List.mem_singleton]
      intro hxk
      exact hk (by rw [← hxk]; exact hx)

theorem rdict_keys_nodup (db : RecDB) (uid : Nat) :
    (dkeys (recommendations_dict db uid)).Nodup := by
  unfold recommendations_dict
  refine boostfold_keys_nodup _ _ ?_
  rw [baseRecs_keys]
  exact tagdict_keys_nodup db uid

theorem boostfold_wf (db : RecDB) (uid : Nat) (fD : List (Nat × FollowEntry))
    (d : List (Nat × RecEntry))
    (hd : ∀ p ∈ d, p.2.game.id = p.1 ∧ p.2.game ∈ db.games ∧ notExcl db uid p.1 = true)
    (hf : ∀ p ∈ fD, p.2.game.id = p.1 ∧ p.2.game ∈ db.games ∧ notExcl db uid p.1 = true) :
    ∀ p ∈ fD.foldl boostStep d,
      p.2.game.id = p.1 ∧ p.2.game ∈ db.games ∧ notExcl db uid p.1 = true := by
  induction fD generalizing d with
  | nil => exact hd
  | cons q rest ih =>
    rw [List.foldl_cons]
    refine ih _ ?_ (fun p hp => hf p (List.mem_cons_of_mem q hp))
    intro p hp
    unfold boostStep at hp
    by_cases hm : dmem d q.1
    · rw [if_pos hm] at hp
      unfold dupdate at hp
      obtain ⟨r, hr, hpr⟩ := List.mem_map.1 hp
      have hr' := hd r hr
      by_cases hrk : r.1 = q.1
      · rw [if_pos hrk] at hpr
        rw [← hpr]
        refine ⟨by rw [← hrk]; exact hr'.1, hr'.2.1, by rw [← hrk]; exact hr'.2.2⟩
      · rw [if_neg hrk] at hpr
        rw [← hpr]
        exact hr'
    · rw [if_neg hm] at hp
      rcases List.mem_append.1 hp with hp | hp
      · exact hd p hp
      · rw [List.mem_singleton] at hp
        rw [hp]
        have := hf q (List.mem_cons_self q rest)
        exact ⟨this.1, this.2.1, this.2.2⟩

theorem rdict_wf (db : RecDB) (uid : Nat) :
    ∀ p ∈ recommendations_dict db uid,
      p.2.game.id = p.1 ∧ p.2.game ∈ db.games ∧ notExcl db uid p.1 = true := by
  unfold recommendations_dict
  refine boostfold_wf db uid _ _ ?_ (fdict_wf db uid)
  intro p hp
  unfold baseRecs at hp
  obtain ⟨q, hq, hpq⟩ := List.mem_map.1 hp
  have hq' := tagdict_wf db uid q hq
  rw [← hpq]
  exact ⟨hq'.1, hq'.2.1, hq'.2.2⟩

theorem mem_insertByScore (e x : RecEntry) (l : List RecEntry) :
    x ∈ insertByScore e l ↔ x = e ∨ x ∈ l := by
  induction l with
  | nil => simp [insertByScore]
  | cons y ys ih =>
    unfold insertByScore
    by_cases h : y.score > e.score
    · rw [if_pos h]
      rw [List.mem_cons, ih, List.mem_cons]
      tauto
    · rw [if_neg h]
      rw [List.mem_cons, List.mem_cons]

theorem mem_sortByScoreDesc (x : RecEntry) (l : List RecEntry) :
    x ∈ sortByScoreDesc l ↔ x ∈ l := by
  unfold sortByScoreDesc
  induction l with
  | nil => simp
  | cons y ys ih =>
    rw [List.foldr_cons, mem_insertByScore, List.mem_cons, ih]

theorem mem_index_recs (db : RecDB) (uid : Nat) (e : RecEntry)
    (he : e ∈ (index db uid).recommendations) :
    ∃ k, (k, e) ∈ recommendations_dict db uid := by
  unfold index at he
  have h1 := List.mem_of_mem_take he
  rw [mem_sortByScoreDesc] at h1
  obtain ⟨p, hp, hpe⟩ := List.mem_map.1 h1
  refine ⟨p.1, ?_⟩
  obtain ⟨a, b⟩ := p
  simp only at hpe
  rw [hpe] at hp
  exact hp

end NextQuest.Recs

namespace NextQuest.Recs

/-- Claim C1: every entry of the recommendation list scores exactly the sum
of the user's preference weights over the game's matching declared tags,
plus a flat bonus of 5 exactly when at least one followed user owns the
game.  The `Nodup` hypotheses are the schema's UNIQUE constraints (game
ids, `(game, tag)` pairs, and `(user, tag)` preference rows). -/
theorem recommendation_score_formula (db : RecDB) (uid : Nat)
    (h1 : (db.games.map (·.id)).Nodup)
    (h2 : db.gameTags.Nodup)
    (h3 : ((db.prefs.filter (fun r => r.userId = uid)).map (·.tag)).Nodup) :
    ∀ e ∈ (index db uid).recommendations,
      e.score = prefTagSum db uid e.game.id
        + (if followedOwns db uid e.game.id = true then (5 : Rat) else 0) := by
  intro e he
  by_cases hne : (user_tags db uid).isEmpty
  · have hempty : (index db uid).recommendations = [] := by
      unfold index recommendations_dict baseRecs followed_user_games tag_based_games
      rw [if_pos hne, if_pos hne]
      rfl
    rw [hempty] at he
    exact absurd he (List.not_mem_nil e)
  · obtain ⟨k, hk⟩ := mem_index_recs db uid e he
    have hnodup := rdict_keys_nodup db uid
    have hlook : dlookup (recommendations_dict db uid) k = some e :=
      (mem_iff_dlookup _ _ _ hnodup).1 hk
    have hwf := rdict_wf db uid (k, e) hk
    have hgid : e.game.id = k := hwf.1
    have hex : notExcl db uid k = true := hwf.2.2
    have hrow : db.games.any (fun g => g.id = k) = true := by
      rw [List.any_eq_true]
      exact ⟨e.game, hwf.2.1, by simpa using hgid⟩
    have hrowE : ∃ g ∈ db.games, g.id = k := ⟨e.game, hwf.2.1, hgid⟩
    have hb := boost_lookup (followed_user_games db uid) (baseRecs db uid) k
      (fdict_keys_nodup db uid)
    rw [show (followed_user_games db uid).foldl boostStep (baseRecs db uid)
        = recommendations_dict db uid from rfl, hlook] at hb
    have hfd_iff := dmem_fdict db uid k hne
    have hsum := sum_ut_eq_prefTagSum db uid k h1 h2 h3 hrow hex
    have hboolf : dmem (followed_user_games db uid) k = followedOwns db uid k := by
      by_cases hfo : followedOwns db uid k = true
      · rw [hfo]
        exact hfd_iff.2 ⟨hfo, hrowE, hex⟩
      · have hnm : ¬ dmem (followed_user_games db uid) k = true :=
          fun hc => hfo (hfd_iff.1 hc).1
        rw [Bool.eq_false_iff.2 hnm, Bool.eq_false_iff.2 hfo]
    rw [hgid]
    cases hbase : dlookup (tag_based_games db uid) k with
    | some te =>
      have hbr : dlookup (baseRecs db uid) k = some (mkRecEntry te) := by
        unfold baseRecs
        rw [dlookup_map_val, hbase]
        rfl
      rw [hbr] at hb
      dsimp only at hb
      rw [Option.map_some', Option.some.injEq, Prod.mk.injEq] at hb
      have hscore : te.score = scoreAt (tag_based_games db uid) k := by
        unfold scoreAt
        rw [hbase]
        rfl
      rw [hb.1]
      have hmk : (mkRecEntry te).score = te.score := rfl
      rw [hmk, hscore, scoreAt_tagdict db uid k hne, hsum, hboolf]
    | none =>
      have hbr : dlookup (baseRecs db uid) k = none := (baseRecs_none_iff db uid k).2 hbase
      rw [hbr] at hb
      dsimp only at hb
      cases hfd : dlookup (followed_user_games db uid) k with
      | none =>
        rw [hfd] at hb
        exact absurd hb (by simp)
      | some fe =>
        rw [hfd] at hb
        simp only [Option.map_some', Option.some.injEq, Prod.mk.injEq] at hb
        have hdm : dmem (followed_user_games db uid) k = true :=
          dlookup_some_dmem _ k fe hfd
        have hfo : followedOwns db uid k = true := (hfd_iff.1 hdm).1
        have hzero : prefTagSum db uid k = 0 := by
          rw [← hsum]
          apply List.sum_eq_zero
          intro x hx
          obtain ⟨tw, htw, hxe⟩ := List.mem_map.1 hx
          have hcnt : ((tagQuery db uid tw.1).map (·.id)).count k = 0 := by
            rw [List.count_eq_zero]
            intro hmem
            have : dmem (tag_based_games db uid) k = true :=
              (dmem_tagdict db uid k hne).2 ⟨tw, htw, hmem⟩
            obtain ⟨v, hv⟩ := dmem_true_dlookup _ k this
            rw [hbase] at hv
            exact absurd hv (by simp)
          rw [← hxe, hcnt]
          simp
        rw [hb.1, hzero, hfo, if_pos rfl, zero_add]

/-- Claim C2: the recommendation list never contains a game id present in
the user's own library. -/
theorem recommendations_exclude_owned (db : RecDB) (uid : Nat) :
    ∀ e ∈ (index db uid).recommendations,
      ∀ l ∈ db.lib, l.userId = uid → ¬ l.gameId = e.game.id := by
  intro e he l hl hluid heq
  obtain ⟨k, hk⟩ := mem_index_recs db uid e he
  have hwf := rdict_wf db uid (k, e) hk
  have hgid : e.game.id = k := hwf.1
  have hlf : l ∈ db.lib.filter (fun x => x.userId = uid) := by
    rw [List.mem_filter]
    exact ⟨hl, by simpa using hluid⟩
  have hmem : l.gameId ∈ user_game_ids db uid :=
    List.mem_map_of_mem (fun x => x.gameId) hlf
  have hnotempty : (user_game_ids db uid).isEmpty = false := by
    cases hug : user_game_ids db uid
    · rw [hug] at hmem
      exact absurd hmem (List.not_mem_nil _)
    · rfl
  have hex : notExcl db uid k = true := hwf.2.2
  unfold notExcl at hex
  rw [hnotempty] at hex
  simp only [Bool.false_eq_true, if_false, decide_eq_true_eq] at hex
  apply hex
  rw [← hgid, ← heq]
  exact hmem

/-- Claim C10: a user with no declared tag preferences gets an empty
recommendation list and `has_preferences = false`, even when follow edges
and followed users' libraries exist (the followed-user bonus path is gated
on having at least one preference). -/
theorem no_preferences_empty_recs (db : RecDB) (uid : Nat)
    (h : db.prefs.filter (fun r => r.userId = uid) = []) :
    (index db uid).recommendations = [] ∧ (index db uid).has_preferences = false := by
  have hut : user_tags db uid = [] := by
    unfold user_tags
    rw [h]
    rfl
  have hie : (user_tags db uid).isEmpty = true := by
    rw [hut]
    rfl
  constructor
  · unfold index recommendations_dict baseRecs followed_user_games tag_based_games
    rw [if_pos hie, if_pos hie]
    rfl
  · unfold index
    rw [hut]
    rfl

end NextQuest.Recs

namespace NextQuest.Recs

/-- Concrete instantiation of `recommendation_score_formula`: in
`sampleDB`, user 1's single recommendation is game 20 with score
1.0 (Action weight) + 5 (followed-user bonus) = 6.0. -/
theorem recommendation_score_formula_witness :
    ((sampleDB.games.map (·.id)).Nodup ∧ sampleDB.gameTags.Nodup
      ∧ ((sampleDB.prefs.filter (fun r => r.userId = 1)).map (·.tag)).Nodup)
    ∧ (∀ e ∈ (index sampleDB 1).recommendations,
        e.score = prefTagSum sampleDB 1 e.game.id
          + (if followedOwns sampleDB 1 e.game.id = true then (5 : Rat) else 0))
    ∧ ((index sampleDB 1).recommendations).map (·.score) = [(6 : Rat)] := by
  refine ⟨⟨by decide, by decide, by decide⟩, ?_, by with_unfolding_all decide⟩
  exact recommendation_score_formula sampleDB 1 (by decide) (by decide) (by decide)

/-- Concrete instantiation of `recommendations_exclude_owned`: user 1 owns
games 10 and 30, and the recommendation list contains only game 20. -/
theorem recommendations_exclude_owned_witness :
    ((index sampleDB 1).recommendations.map (fun e => e.game.id) = [20])
    ∧ (∀ e ∈ (index sampleDB 1).recommendations,
        ∀ l ∈ sampleDB.lib, l.userId = 1 → ¬ l.gameId = e.game.id) :=
  ⟨by with_unfolding_all decide, recommendations_exclude_owned sampleDB 1⟩

/-- Concrete instantiation of `no_preferences_empty_recs`: user 2 has no
preferences but follows user 1, who owns game 30, which user 2 does not
own; the view still returns nothing. -/
theorem no_preferences_empty_recs_witness :
    (sampleDB.prefs.filter (fun r => r.userId = 2) = []
      ∧ (2, 1) ∈ sampleDB.follows
      ∧ (⟨1, 30, 5⟩ : LibRow) ∈ sampleDB.lib
      ∧ ¬ (30 : Nat) ∈ (sampleDB.lib.filter (fun l => l.userId = 2)).map (·.gameId))
    ∧ (index sampleDB 2).recommendations = []
    ∧ (index sampleDB 2).has_preferences = false := by
  refine ⟨⟨by decide, by decide, by decide, by decide⟩, ?_⟩
  exact no_preferences_empty_recs sampleDB 2 (by decide)

end NextQuest.Recs
